import Mathlib

/-!
# Terrain composite-map renderer: scheduling pass and per-job compile

A shallow embedding of `components/terrain/compositemaprenderer.cpp`.

Modelling choices.

* A `CompositeMap*` is the address of the job, a natural number.  The three
  `std::set`s of the renderer are strictly increasing lists of addresses:
  `begin()` is the head, `insert` is the ordered insertion `setInsert`,
  `erase(begin())` is the tail and `erase(found)` is `List.erase`.
* The composite maps live in a heap `World.maps`, indexed by address.
* Everything the code only reads from its surroundings during one pass is in
  `Env`: the reference count of a job's texture, whether framebuffer objects
  are supported, the outcome of the framebuffer status check with a job's
  texture attached, the default framebuffer id of the graphics context and
  what the timer reports after each operation.
* Wall-clock time is counted in integer timer ticks (`Int`); the time budget
  is expressed in the same unit, and `compile` subtracts exactly.
* The code computes the time left with `double`s and rounds every difference.
  `compileWith subDouble` is `compile` with that rounding: a finite `double` is
  represented by the integer `k` with value `k * 2 ^ (-1074)` seconds, and
  `roundDouble` rounds an exact result to 53 significant bits, ties to even
  (infinities and NaN do not occur for the times of a pass). `compileWith` with
  the exact subtraction is `compile`. The arithmetic of the budget is settled
  on `compileWith subDouble`.
* `mCompiled` and the loop index are natural numbers: the number of drawables
  of a composite map is far below `2 ^ 32`.
* Calls into the graphics state are recorded, in order, in `World.events`.
* The `while` loop over the deferred set can fail to terminate, so it takes
  fuel and returns `none` when the fuel runs out.
-/

namespace Terrain

/-- The texture of a composite map, as far as the code looks at it. -/
structure Texture2D where
  width : Nat
  height : Nat
deriving DecidableEq, Repr

/-- A drawable: `getStateSet()` is all the code asks of it before drawing. -/
structure Drawable where
  stateSet : Option Nat
deriving DecidableEq, Repr

/-- The class `CompositeMap`. -/
structure CompositeMap where
  mDrawables : List Drawable
  mTexture : Texture2D
  mCompiled : Nat
deriving DecidableEq, Repr

/-- The constructor `CompositeMap::CompositeMap()`: `mCompiled(0)`; the
producer then fills the public fields `mTexture` and `mDrawables`. -/
def CompositeMap.new (tex : Texture2D) (drawables : List Drawable) : CompositeMap :=
  { mDrawables := drawables, mTexture := tex, mCompiled := 0 }

/-- The calls into the graphics state made by `compile`, as they are logged. -/
inductive GLEvent where
  | attachAndApply (node : Nat)
  | checkFramebufferStatus
  | bindFramebuffer (fboId : Nat)
  | errorAttachingFBO
  | pushStateSet (ss : Nat)
  | applyState
  | viewport (w h : Nat)
  | draw (node i : Nat)
  | popStateSet
  | haveAppliedViewport
deriving DecidableEq, Repr

/-- What a pass reads from its surroundings. -/
structure Env where
  /-- The value of `compositeMap.mTexture->referenceCount()` for the job at an address. -/
  referenceCount : Nat → Nat
  /-- The flag `ext->isFrameBufferObjectSupported`. -/
  isFrameBufferObjectSupported : Bool
  /-- Whether `glCheckFramebufferStatus` answers `GL_FRAMEBUFFER_COMPLETE_EXT`
  with the texture of the job at an address attached. -/
  framebufferComplete : Nat → Bool
  /-- The default framebuffer id of `state.getGraphicsContext()`, if there is one. -/
  graphicsContext : Option Nat
  /-- What `timer.time_s()` reports after operation `i` of the job at an address. -/
  time_s : Nat → Nat → Int

/-- The heap of composite maps and the graphics state. -/
structure World where
  maps : Nat → CompositeMap
  drawFbo : Nat
  readFbo : Nat
  stateSetStack : List Nat
  events : List GLEvent

/-- The fields of `CompositeMapRenderer`. -/
structure CompositeMapRenderer where
  mTimeAvailable : Int
  mCompileSet : List Nat
  mImmediateCompileSet : List Nat
  mCompiled : List Nat
  mFBO : Option Nat

/-- The constructor `CompositeMapRenderer::CompositeMapRenderer()`; `fbo` is the
handle of the new framebuffer object and `timeAvailable` the initial budget
(`0.0005` seconds, in ticks). -/
def CompositeMapRenderer.new (timeAvailable : Int) (fbo : Nat) : CompositeMapRenderer :=
  { mTimeAvailable := timeAvailable, mCompileSet := [], mImmediateCompileSet := [],
    mCompiled := [], mFBO := some fbo }

/-- The operation `std::set::insert` on a strictly increasing list. -/
def setInsert (x : Nat) : List Nat → List Nat
  | [] => [x]
  | y :: ys => if x < y then x :: y :: ys else if x = y then y :: ys else y :: setInsert x ys

/-- A list that represents a `std::set`: strictly increasing. -/
def IsSet (l : List Nat) : Prop := l.Sorted (· < ·)

instance (l : List Nat) : Decidable (IsSet l) := by unfold IsSet; infer_instance

/-- Assignment to `mCompiled` of the composite map at `node`. -/
def World.setCompiled (w : World) (node n : Nat) : World :=
  { w with maps := fun j => if j = node then { w.maps node with mCompiled := n } else w.maps j }

/-- Append calls to the log. -/
def World.log (w : World) (es : List GLEvent) : World :=
  { w with events := w.events ++ es }

/-- The expression `state.getGraphicsContext() ? ...->getDefaultFboId() : 0`. -/
def defaultFboId (env : Env) : Nat :=
  match env.graphicsContext with
  | some id => id
  | none => 0

/-- The call `ext->glBindFramebuffer(GL_FRAMEBUFFER_EXT, fboId)`: binds both the
read and the draw framebuffer. -/
def World.bindFramebuffer (w : World) (fboId : Nat) : World :=
  { w with drawFbo := fboId, readFbo := fboId, events := w.events ++ [GLEvent.bindFramebuffer fboId] }

/-- One round of the `for` loop of `compile` up to `++compositeMap.mCompiled`
(lines 93-107): operation `i` of the job at `node` is executed. -/
def drawOne (node : Nat) (drw : Drawable) (i : Nat) (w : World) : World :=
  let tex := (w.maps node).mTexture
  let w1 : World :=
    match drw.stateSet with
    | some ss => { w with stateSetStack := ss :: w.stateSetStack,
                          events := w.events ++ [GLEvent.pushStateSet ss] }
    | none => w
  let w2 := w1.log [GLEvent.applyState, GLEvent.viewport tex.width tex.height, GLEvent.draw node i]
  let w3 : World :=
    match drw.stateSet with
    | some _ => { w2 with stateSetStack := w2.stateSetStack.tail,
                          events := w2.events ++ [GLEvent.popStateSet] }
    | none => w2
  w3.setCompiled node ((w3.maps node).mCompiled + 1)

/-- The `for` loop of `compile` (lines 91-117) over the drawables from index
`i` on; `i` and `mCompiled` advance together. -/
def drawLoop (env : Env) (node : Nat) : List Drawable → Nat → World → Option Int → World × Option Int
  | [], _, w, timeLeft => (w, timeLeft)
  | drw :: rest, i, w, timeLeft =>
    let w4 := drawOne node drw i w
    match timeLeft with
    | none => drawLoop env node rest (i + 1) w4 none
    | some t =>
      let t1 := t - env.time_s node i
      if t1 ≤ 0 then (w4, some t1) else drawLoop env node rest (i + 1) w4 (some t1)

/-- The method `CompositeMapRenderer::compile`; `timeLeft` is `none` for a
null pointer, and the second component is the value behind the pointer on return. -/
def compile (env : Env) (mFBO : Option Nat) (node : Nat) (w : World) (timeLeft : Option Int) :
    World × Option Int :=
  if env.referenceCount node ≤ 1 then
    (w.setCompiled node (w.maps node).mDrawables.length, timeLeft)
  else
    match mFBO with
    | none => (w, timeLeft)
    | some fbo =>
      if !env.isFrameBufferObjectSupported then (w, timeLeft)
      else
        let w1 : World := { w with drawFbo := fbo, events := w.events ++ [GLEvent.attachAndApply node] }
        let w2 := w1.log [GLEvent.checkFramebufferStatus]
        if !env.framebufferComplete node then
          (((w2.bindFramebuffer (defaultFboId env)).log [GLEvent.errorAttachingFBO]), timeLeft)
        else
          let res := drawLoop env node ((w2.maps node).mDrawables.drop (w2.maps node).mCompiled)
            (w2.maps node).mCompiled w2 timeLeft
          (((res.1.log [GLEvent.haveAppliedViewport]).bindFramebuffer (defaultFboId env)), res.2)

/-- The body of the first `while` loop (lines 34-39), for the first job `node`
of the immediate set and the rest `rest` of that set. -/
def immediateBody (env : Env) (node : Nat) (rest : List Nat) (r : CompositeMapRenderer) (w : World) :
    CompositeMapRenderer × World :=
  let r1 := { r with mCompiled := setInsert node r.mCompiled }
  let w1 := (compile env r1.mFBO node w none).1
  ({ r1 with mImmediateCompileSet := rest }, w1)

/-- The first `while` loop of `drawImplementation` (lines 32-40), over the
content of the immediate set: each round erases the first job, so the loop
ends when the content is used up. -/
def immediateLoop (env : Env) : List Nat → CompositeMapRenderer → World → CompositeMapRenderer × World
  | [], r, w => (r, w)
  | node :: rest, r, w =>
    let res := immediateBody env node rest r w
    immediateLoop env rest res.1 res.2

/-- The body of the second `while` loop (lines 46-54), for the first job
`node` of the deferred set and the rest `rest` of that set. -/
def deferredBody (env : Env) (node : Nat) (rest : List Nat) (r : CompositeMapRenderer) (w : World)
    (timeLeft : Int) : CompositeMapRenderer × World × Int :=
  let res := compile env r.mFBO node w (some timeLeft)
  let w1 := res.1
  let t1 := res.2.getD timeLeft
  if (w1.maps node).mCompiled ≥ (w1.maps node).mDrawables.length then
    ({ r with mCompiled := setInsert node r.mCompiled, mCompileSet := rest }, w1, t1)
  else
    (r, w1, t1)

/-- The second `while` loop of `drawImplementation` (lines 44-55), with fuel. -/
def deferredLoop (env : Env) : Nat → CompositeMapRenderer → World → Int →
    Option (CompositeMapRenderer × World × Int)
  | fuel, r, w, timeLeft =>
    match r.mCompileSet with
    | [] => some (r, w, timeLeft)
    | node :: rest =>
      if timeLeft > 0 then
        match fuel with
        | 0 => none
        | fuel + 1 =>
          let res := deferredBody env node rest r w timeLeft
          deferredLoop env fuel res.1 res.2.1 res.2.2
      else some (r, w, timeLeft)

/-- The method `CompositeMapRenderer::drawImplementation`: one scheduling pass.
The result carries the final value of the local `timeLeft` when the pass got
that far. -/
def drawImplementation (env : Env) (fuel : Nat) (r : CompositeMapRenderer) (w : World) :
    Option (CompositeMapRenderer × World × Option Int) :=
  let r0 := { r with mCompiled := [] }
  if r0.mImmediateCompileSet.isEmpty && r0.mCompileSet.isEmpty then some (r0, w, none)
  else
    let res := immediateLoop env r0.mImmediateCompileSet r0 w
    match deferredLoop env fuel res.1 res.2 res.1.mTimeAvailable with
    | none => none
    | some (r2, w2, t2) => some (r2, w2, some t2)

/-- The method `CompositeMapRenderer::setTimeAvailableForCompile`. -/
def setTimeAvailableForCompile (r : CompositeMapRenderer) (time : Int) : CompositeMapRenderer :=
  { r with mTimeAvailable := time }

/-- The method `CompositeMapRenderer::addCompositeMap`. -/
def addCompositeMap (r : CompositeMapRenderer) (compositeMap : Nat) (immediate : Bool) :
    CompositeMapRenderer :=
  if immediate then
    { r with mImmediateCompileSet := setInsert compositeMap r.mImmediateCompileSet }
  else
    { r with mCompileSet := setInsert compositeMap r.mCompileSet }

/-- The method `CompositeMapRenderer::setImmediate`. -/
def setImmediate (r : CompositeMapRenderer) (compositeMap : Nat) : CompositeMapRenderer :=
  if compositeMap ∈ r.mCompileSet then
    { r with mImmediateCompileSet := setInsert compositeMap r.mImmediateCompileSet,
             mCompileSet := r.mCompileSet.erase compositeMap }
  else r

/-- The method `CompositeMapRenderer::getCompileSetSize`. -/
def getCompileSetSize (r : CompositeMapRenderer) : Nat :=
  r.mCompileSet.length

/-- The operations executed, read off the log: the pairs `(node, i)` of the
`draw` calls, in order. -/
def drawsOf : List GLEvent → List (Nat × Nat)
  | [] => []
  | GLEvent.draw node i :: es => (node, i) :: drawsOf es
  | _ :: es => drawsOf es

/-- The attempts to bind a render destination, read off the log: the nodes of
the `attachAndApply` calls, in order. -/
def bindsOf : List GLEvent → List Nat
  | [] => []
  | GLEvent.attachAndApply node :: es => node :: bindsOf es
  | _ :: es => bindsOf es

/-- The invariant of the data model: `mCompiled ≤ mDrawables.size()`. -/
def CompositeMap.Bounded (m : CompositeMap) : Prop :=
  m.mCompiled ≤ m.mDrawables.length

instance (m : CompositeMap) : Decidable m.Bounded := by unfold CompositeMap.Bounded; infer_instance

/-- Binding the render destination of the job at `node` succeeds. -/
def BindOk (env : Env) (mFBO : Option Nat) (node : Nat) : Prop :=
  mFBO.isSome = true ∧ env.isFrameBufferObjectSupported = true ∧ env.framebufferComplete node = true

instance (env : Env) (mFBO : Option Nat) (node : Nat) : Decidable (BindOk env mFBO node) := by
  unfold BindOk; infer_instance

/-- The number of operations the `for` loop of `compile` executes when `n`
operations remain from index `i` on. -/
def opsRun (env : Env) (node : Nat) : Nat → Nat → Option Int → Nat
  | 0, _, _ => 0
  | n + 1, i, none => opsRun env node n (i + 1) none + 1
  | n + 1, i, some t =>
    if t - env.time_s node i ≤ 0 then 1 else opsRun env node n (i + 1) (some (t - env.time_s node i)) + 1

/-- The value behind `timeLeft` when the `for` loop of `compile` ends. -/
def timeAfter (env : Env) (node : Nat) : Nat → Nat → Option Int → Option Int
  | 0, _, t => t
  | n + 1, i, none => timeAfter env node n (i + 1) none
  | n + 1, i, some t =>
    if t - env.time_s node i ≤ 0 then some (t - env.time_s node i)
    else timeAfter env node n (i + 1) (some (t - env.time_s node i))

/-- Every composite map of the heap satisfies the invariant. -/
def AllBounded (w : World) : Prop := ∀ j, (w.maps j).Bounded

/-- The job at `node` is abandoned: the liveness check of `compile` fires. -/
def Abandoned (env : Env) (node : Nat) : Prop := env.referenceCount node ≤ 1

instance (env : Env) (node : Nat) : Decidable (Abandoned env node) := by
  unfold Abandoned; infer_instance

/-- The world `w1` comes from `w` by compiling jobs of `L` only: drawables and
textures are the same, no progress went down, every progress is within bounds,
jobs outside `L` are untouched, the log only grew, and every operation executed
in between is an operation of a job of `L` with an index at or above the
progress in `w` and below the progress in `w1`, and is executed once. -/
def Advances (L : List Nat) (w w1 : World) : Prop :=
  (∀ j, (w1.maps j).mDrawables = (w.maps j).mDrawables ∧
    (w1.maps j).mTexture = (w.maps j).mTexture ∧
    (w.maps j).mCompiled ≤ (w1.maps j).mCompiled ∧
    (w1.maps j).mCompiled ≤ (w1.maps j).mDrawables.length) ∧
  (∀ j, j ∉ L → w1.maps j = w.maps j) ∧
  ∃ es, w1.events = w.events ++ es ∧ (drawsOf es).Nodup ∧
    ∀ q ∈ drawsOf es, q.1 ∈ L ∧ (w.maps q.1).mCompiled ≤ q.2 ∧ q.2 < (w1.maps q.1).mCompiled

/-- What can happen to a renderer: the calls of its producers and the passes,
each pass with the surroundings it meets and its fuel. -/
inductive Action where
  | addCompositeMap (compositeMap : Nat) (immediate : Bool)
  | setImmediate (compositeMap : Nat)
  | setTimeAvailableForCompile (time : Int)
  | drawImplementation (env : Env) (fuel : Nat)

/-- The effect of one action; `none` when a pass runs out of fuel. -/
def Action.apply : Action → CompositeMapRenderer × World → Option (CompositeMapRenderer × World)
  | Action.addCompositeMap j immediate, (r, w) => some (Terrain.addCompositeMap r j immediate, w)
  | Action.setImmediate j, (r, w) => some (Terrain.setImmediate r j, w)
  | Action.setTimeAvailableForCompile time, (r, w) =>
    some (Terrain.setTimeAvailableForCompile r time, w)
  | Action.drawImplementation env fuel, (r, w) =>
    match Terrain.drawImplementation env fuel r w with
    | none => none
    | some res => some (res.1, res.2.1)

/-- The effect of a sequence of actions, first action first. -/
def runActions : List Action → CompositeMapRenderer × World → Option (CompositeMapRenderer × World)
  | [], s => some s
  | a :: as, s =>
    match a.apply s with
    | none => none
    | some s1 => runActions as s1

/-- A world with the given heap, nothing bound and an empty log. -/
def World.init (maps : Nat → CompositeMap) : World :=
  { maps := maps, drawFbo := 0, readFbo := 0, stateSetStack := [], events := [] }

/-- A fresh job with `n` operations on a 64 x 64 texture. -/
def sampleJob (n : Nat) : CompositeMap :=
  CompositeMap.new { width := 64, height := 64 } (List.replicate n { stateSet := none })

/-- Surroundings in which every job is referenced from outside, every render
destination is bound and every operation is measured at `cost` ticks. -/
def envBound (cost : Int) : Env where
  referenceCount := fun _ => 2
  isFrameBufferObjectSupported := true
  framebufferComplete := fun _ => true
  graphicsContext := some 0
  time_s := fun _ _ => cost

/-- Surroundings without framebuffer objects: every job is referenced from
outside and no render destination can be bound. -/
def envNoFbo : Env where
  referenceCount := fun _ => 2
  isFrameBufferObjectSupported := false
  framebufferComplete := fun _ => true
  graphicsContext := some 0
  time_s := fun _ _ => 1

/-- Surroundings in which no job is referenced from outside any more. -/
def envAbandoned : Env where
  referenceCount := fun _ => 1
  isFrameBufferObjectSupported := true
  framebufferComplete := fun _ => true
  graphicsContext := some 0
  time_s := fun _ _ => 1

/-- No job is in both the immediate and the deferred set. -/
def QueuesDisjoint (r : CompositeMapRenderer) : Prop :=
  ∀ j ∈ r.mImmediateCompileSet, j ∉ r.mCompileSet

instance (r : CompositeMapRenderer) : Decidable (QueuesDisjoint r) := by
  unfold QueuesDisjoint; infer_instance

/-- The sum of what the timer reports after the `k` operations of the job at
`node` that start at index `i`. -/
def spent (env : Env) (node : Nat) : Nat → Nat → Int
  | _, 0 => 0
  | i, k + 1 => env.time_s node i + spent env node (i + 1) k

/-- Surroundings in which every job is referenced from outside and the
framebuffer status check fails for every job. -/
def envIncomplete : Env where
  referenceCount := fun _ => 2
  isFrameBufferObjectSupported := true
  framebufferComplete := fun _ => false
  graphicsContext := some 0
  time_s := fun _ _ => 1

/-- The number of low bits to drop from `a` so that at most 53 bits remain: the
least `s` with `a / 2 ^ s < 2 ^ 53`, found by halving; `fuel` bounds the number
of halvings. -/
def excessBits : Nat → Nat → Nat
  | 0, _ => 0
  | fuel + 1, a => if a < 9007199254740992 then 0 else excessBits fuel (a / 2) + 1

/-- The rounding of `double` arithmetic. A finite `double` is represented by
the integer `k` for which its value is `k * 2 ^ (-1074)` seconds; every finite
`double` is such a multiple. The exact result `k` of an operation is rounded to
the nearest `double`, ties to even: 53 significant bits are kept. An exact
result below `2 ^ 53` in size is a `double` already. -/
def roundDouble (k : Int) : Int :=
  if k.natAbs < 9007199254740992 then k
  else
    let s := excessBits k.natAbs k.natAbs
    let q := k.natAbs >>> s
    let r := k.natAbs % (1 <<< s)
    let q1 := if (1 <<< (s - 1)) < r ∨ (r = (1 <<< (s - 1)) ∧ q % 2 = 1) then q + 1 else q
    if k < 0 then -((q1 <<< s : Nat) : Int) else ((q1 <<< s : Nat) : Int)

/-- The subtraction of two `double`s as the machine performs it in
`*timeLeft -= timer.time_s()` (line 111): the exact difference, rounded. -/
def subDouble (a b : Int) : Int := roundDouble (a - b)

/-- The `for` loop of `compile` (lines 91-117) with the subtraction of line 111
performed by `sub`; with `subDouble` the time left and the timer values are the
`double`s of the code. -/
def drawLoopWith (sub : Int → Int → Int) (env : Env) (node : Nat) :
    List Drawable → Nat → World → Option Int → World × Option Int
  | [], _, w, timeLeft => (w, timeLeft)
  | drw :: rest, i, w, timeLeft =>
    let w4 := drawOne node drw i w
    match timeLeft with
    | none => drawLoopWith sub env node rest (i + 1) w4 none
    | some t =>
      let t1 := sub t (env.time_s node i)
      if t1 ≤ 0 then (w4, some t1) else drawLoopWith sub env node rest (i + 1) w4 (some t1)

/-- The method `CompositeMapRenderer::compile` with the subtraction of line 111
performed by `sub`. -/
def compileWith (sub : Int → Int → Int) (env : Env) (mFBO : Option Nat) (node : Nat) (w : World)
    (timeLeft : Option Int) : World × Option Int :=
  if env.referenceCount node ≤ 1 then
    (w.setCompiled node (w.maps node).mDrawables.length, timeLeft)
  else
    match mFBO with
    | none => (w, timeLeft)
    | some fbo =>
      if !env.isFrameBufferObjectSupported then (w, timeLeft)
      else
        let w1 : World := { w with drawFbo := fbo, events := w.events ++ [GLEvent.attachAndApply node] }
        let w2 := w1.log [GLEvent.checkFramebufferStatus]
        if !env.framebufferComplete node then
          (((w2.bindFramebuffer (defaultFboId env)).log [GLEvent.errorAttachingFBO]), timeLeft)
        else
          let res := drawLoopWith sub env node
            ((w2.maps node).mDrawables.drop (w2.maps node).mCompiled)
            (w2.maps node).mCompiled w2 timeLeft
          (((res.1.log [GLEvent.haveAppliedViewport]).bindFramebuffer (defaultFboId env)), res.2)

/-- The value behind `timeLeft` after the `k` operations of the job at `node`
that start at index `i`, when it was `t` before them: what the timer reported
is subtracted operation by operation with `sub`. -/
def timeLeftAfter (sub : Int → Int → Int) (env : Env) (node : Nat) : Nat → Nat → Int → Int
  | _, 0, t => t
  | i, k + 1, t => timeLeftAfter sub env node (i + 1) k (sub t (env.time_s node i))

/-- The `double` nearest to 0.0005, the budget the constructor sets, in units of
`2 ^ (-1074)` seconds. -/
def budgetHalfMillisecond : Int := ((1152921504606847 <<< 1013 : Nat) : Int)

/-- Surroundings in which every job is referenced from outside, every render
destination is bound, and the timer reports the `double` nearest to 1e-9
seconds after operation 0 and the `double` nearest to 4.99999e-4 seconds after
every other operation, in units of `2 ^ (-1074)` seconds. -/
def envRounding : Env where
  referenceCount := fun _ => 2
  isFrameBufferObjectSupported := true
  framebufferComplete := fun _ => true
  graphicsContext := some 0
  time_s := fun _ i =>
    if i = 0 then ((4835703278458517 <<< 992 : Nat) : Int)
    else ((4611676795055351 <<< 1011 : Nat) : Int)

/-! ## Sets as strictly increasing lists -/

theorem mem_setInsert (a x : Nat) (l : List Nat) : a ∈ setInsert x l ↔ a = x ∨ a ∈ l := by
  induction l with
  | nil => simp [setInsert]
  | cons y ys ih =>
    unfold setInsert
    by_cases h1 : x < y
    · simp [h1]
    · by_cases h2 : x = y
      · subst h2; simp
      · simp only [h1, h2, if_false, List.mem_cons, ih]
        tauto

theorem isSet_setInsert (x : Nat) (l : List Nat) (h : IsSet l) : IsSet (setInsert x l) := by
  unfold IsSet at *
  induction l with
  | nil => simp [setInsert]
  | cons y ys ih =>
    unfold setInsert
    by_cases h1 : x < y
    · simp only [h1, if_true]
      refine List.sorted_cons.mpr ⟨?_, h⟩
      intro b hb
      rcases List.mem_cons.mp hb with rfl | hb
      · exact h1
      · exact lt_trans h1 (List.rel_of_sorted_cons h b hb)
    · by_cases h2 : x = y
      · simp only [h1, h2, if_false, if_true]; simpa [h2] using h
      · simp only [h1, h2, if_false]
        refine List.sorted_cons.mpr ⟨?_, ih (List.Sorted.of_cons h)⟩
        intro b hb
        rcases (mem_setInsert b x ys).mp hb with rfl | hb
        · omega
        · exact List.rel_of_sorted_cons h b hb

theorem isSet_nil : IsSet [] := by simp [IsSet]

theorem IsSet.tail {x : Nat} {l : List Nat} (h : IsSet (x :: l)) : IsSet l :=
  List.Sorted.of_cons h

theorem IsSet.head_not_mem {x : Nat} {l : List Nat} (h : IsSet (x :: l)) : x ∉ l := by
  intro hx
  exact lt_irrefl x (List.rel_of_sorted_cons h x hx)

theorem IsSet.nodup {l : List Nat} (h : IsSet l) : l.Nodup :=
  List.Pairwise.imp (fun hab => Nat.ne_of_lt hab) h

theorem IsSet.erase {l : List Nat} (h : IsSet l) (x : Nat) : IsSet (l.erase x) :=
  List.Pairwise.sublist (List.erase_sublist x l) h

theorem mem_erase_of_isSet {l : List Nat} (h : IsSet l) (a x : Nat) :
    a ∈ l.erase x ↔ a ∈ l ∧ a ≠ x := by
  rw [List.Nodup.mem_erase_iff h.nodup]; tauto

/-! ## The log -/

theorem drawsOf_append (a b : List GLEvent) : drawsOf (a ++ b) = drawsOf a ++ drawsOf b := by
  induction a with
  | nil => rfl
  | cons e es ih => cases e <;> simp [drawsOf, ih]

theorem bindsOf_append (a b : List GLEvent) : bindsOf (a ++ b) = bindsOf a ++ bindsOf b := by
  induction a with
  | nil => rfl
  | cons e es ih => cases e <;> simp [bindsOf, ih]

/-! ## The heap -/

@[simp] theorem setCompiled_maps_self (w : World) (node n : Nat) :
    (w.setCompiled node n).maps node = { w.maps node with mCompiled := n } := by
  simp [World.setCompiled]

@[simp] theorem setCompiled_maps_ne (w : World) (node n j : Nat) (h : j ≠ node) :
    (w.setCompiled node n).maps j = w.maps j := by
  simp [World.setCompiled, h]

@[simp] theorem setCompiled_events (w : World) (node n : Nat) :
    (w.setCompiled node n).events = w.events := rfl

@[simp] theorem setCompiled_drawFbo (w : World) (node n : Nat) :
    (w.setCompiled node n).drawFbo = w.drawFbo := rfl

@[simp] theorem setCompiled_readFbo (w : World) (node n : Nat) :
    (w.setCompiled node n).readFbo = w.readFbo := rfl

@[simp] theorem setCompiled_stack (w : World) (node n : Nat) :
    (w.setCompiled node n).stateSetStack = w.stateSetStack := rfl

theorem setCompiled_drawables (w : World) (node n j : Nat) :
    ((w.setCompiled node n).maps j).mDrawables = (w.maps j).mDrawables := by
  by_cases h : j = node
  · subst h; simp
  · simp [h]

theorem setCompiled_texture (w : World) (node n j : Nat) :
    ((w.setCompiled node n).maps j).mTexture = (w.maps j).mTexture := by
  by_cases h : j = node
  · subst h; simp
  · simp [h]

/-! ## The `for` loop of `compile` -/

theorem opsRun_le (env : Env) (node : Nat) (n i : Nat) (t : Option Int) :
    opsRun env node n i t ≤ n := by
  induction n generalizing i t with
  | zero => simp [opsRun]
  | succ n ih =>
    cases t with
    | none => simp only [opsRun]; have := ih (i + 1) none; omega
    | some t =>
      simp only [opsRun]
      split
      · omega
      · have := ih (i + 1) (some (t - env.time_s node i)); omega

theorem opsRun_none (env : Env) (node : Nat) (n i : Nat) : opsRun env node n i none = n := by
  induction n generalizing i with
  | zero => simp [opsRun]
  | succ n ih => simp [opsRun, ih]

theorem opsRun_pos (env : Env) (node : Nat) (n i : Nat) (t : Option Int) (h : 0 < n) :
    0 < opsRun env node n i t := by
  cases n with
  | zero => omega
  | succ n =>
    cases t with
    | none => simp [opsRun]
    | some t => simp only [opsRun]; split <;> omega

theorem timeAfter_none (env : Env) (node : Nat) (n i : Nat) : timeAfter env node n i none = none := by
  induction n generalizing i with
  | zero => simp [timeAfter]
  | succ n ih => simp [timeAfter, ih]

theorem timeAfter_some (env : Env) (node : Nat) (n i : Nat) (t : Int) :
    ∃ t1, timeAfter env node n i (some t) = some t1 := by
  induction n generalizing i t with
  | zero => exact ⟨t, rfl⟩
  | succ n ih =>
    simp only [timeAfter]
    split
    · exact ⟨_, rfl⟩
    · exact ih _ _

/-- When the loop stops before the last operation, the budget is used up. -/
theorem timeAfter_of_opsRun_lt (env : Env) (node : Nat) (n i : Nat) (t : Int)
    (h : opsRun env node n i (some t) < n) :
    ∃ t1, timeAfter env node n i (some t) = some t1 ∧ t1 ≤ 0 := by
  induction n generalizing i t with
  | zero => simp [opsRun] at h
  | succ n ih =>
    simp only [opsRun] at h
    simp only [timeAfter]
    split
    · rename_i hle; exact ⟨_, rfl, hle⟩
    · rename_i hle
      simp only [hle, if_false] at h
      exact ih _ _ (by omega)

theorem drawOne_maps_ne (node : Nat) (drw : Drawable) (i : Nat) (w : World) (j : Nat)
    (h : j ≠ node) : (drawOne node drw i w).maps j = w.maps j := by
  cases hs : drw.stateSet <;> simp [drawOne, hs, World.log, h]

theorem drawOne_maps_self (node : Nat) (drw : Drawable) (i : Nat) (w : World) :
    (drawOne node drw i w).maps node =
      { w.maps node with mCompiled := (w.maps node).mCompiled + 1 } := by
  cases hs : drw.stateSet <;> simp [drawOne, hs, World.log]

theorem drawOne_fbo (node : Nat) (drw : Drawable) (i : Nat) (w : World) :
    (drawOne node drw i w).drawFbo = w.drawFbo ∧ (drawOne node drw i w).readFbo = w.readFbo ∧
      (drawOne node drw i w).stateSetStack = w.stateSetStack := by
  cases hs : drw.stateSet <;> simp [drawOne, hs, World.log]

theorem drawOne_events (node : Nat) (drw : Drawable) (i : Nat) (w : World) :
    ∃ es, (drawOne node drw i w).events = w.events ++ es ∧ drawsOf es = [(node, i)] ∧
      bindsOf es = [] := by
  cases hs : drw.stateSet with
  | none =>
    exact ⟨[GLEvent.applyState, GLEvent.viewport (w.maps node).mTexture.width (w.maps node).mTexture.height, GLEvent.draw node i],
      by simp [drawOne, hs, World.log], rfl, rfl⟩
  | some ss =>
    exact ⟨[GLEvent.pushStateSet ss, GLEvent.applyState, GLEvent.viewport (w.maps node).mTexture.width (w.maps node).mTexture.height, GLEvent.draw node i,
      GLEvent.popStateSet], by simp [drawOne, hs, World.log], rfl, rfl⟩

/-- What the `for` loop of `compile` does to the heap, the graphics state, the
log and the time left. -/
theorem drawLoop_spec (env : Env) (node : Nat) (ds : List Drawable) (i : Nat) (w : World)
    (t : Option Int) :
    (∀ j, j ≠ node → (drawLoop env node ds i w t).1.maps j = w.maps j) ∧
    ((drawLoop env node ds i w t).1.maps node).mDrawables = (w.maps node).mDrawables ∧
    ((drawLoop env node ds i w t).1.maps node).mTexture = (w.maps node).mTexture ∧
    ((drawLoop env node ds i w t).1.maps node).mCompiled =
      (w.maps node).mCompiled + opsRun env node ds.length i t ∧
    (drawLoop env node ds i w t).1.drawFbo = w.drawFbo ∧
    (drawLoop env node ds i w t).1.readFbo = w.readFbo ∧
    (drawLoop env node ds i w t).1.stateSetStack = w.stateSetStack ∧
    (∃ es, (drawLoop env node ds i w t).1.events = w.events ++ es ∧
      drawsOf es = (List.range' i (opsRun env node ds.length i t)).map (Prod.mk node) ∧
      bindsOf es = []) ∧
    (drawLoop env node ds i w t).2 = timeAfter env node ds.length i t := by
  induction ds generalizing i w t with
  | nil =>
    exact ⟨fun _ _ => rfl, rfl, rfl, rfl, rfl, rfl, rfl,
      ⟨[], (List.append_nil _).symm, rfl, rfl⟩, rfl⟩
  | cons drw rest ih =>
    have hne := drawOne_maps_ne node drw i w
    have hself := drawOne_maps_self node drw i w
    obtain ⟨hd, hr, hs⟩ := drawOne_fbo node drw i w
    obtain ⟨es1, he1, hdr1, hb1⟩ := drawOne_events node drw i w
    have stop : ∀ t1 : Option Int,
        (∀ j, j ≠ node → (drawOne node drw i w).maps j = w.maps j) ∧
        ((drawOne node drw i w).maps node).mDrawables = (w.maps node).mDrawables ∧
        ((drawOne node drw i w).maps node).mTexture = (w.maps node).mTexture ∧
        ((drawOne node drw i w).maps node).mCompiled = (w.maps node).mCompiled + 1 ∧
        (drawOne node drw i w).drawFbo = w.drawFbo ∧
        (drawOne node drw i w).readFbo = w.readFbo ∧
        (drawOne node drw i w).stateSetStack = w.stateSetStack ∧
        (∃ es, (drawOne node drw i w).events = w.events ++ es ∧
          drawsOf es = (List.range' i 1).map (Prod.mk node) ∧ bindsOf es = []) ∧
        t1 = t1 := by
      intro t1
      refine ⟨hne, by rw [hself], by rw [hself], by rw [hself], hd, hr, hs,
        ⟨es1, he1, by simpa using hdr1, hb1⟩, rfl⟩
    have go : ∀ t1 : Option Int,
        (∀ j, j ≠ node → (drawLoop env node rest (i + 1) (drawOne node drw i w) t1).1.maps j
            = w.maps j) ∧
        ((drawLoop env node rest (i + 1) (drawOne node drw i w) t1).1.maps node).mDrawables
          = (w.maps node).mDrawables ∧
        ((drawLoop env node rest (i + 1) (drawOne node drw i w) t1).1.maps node).mTexture
          = (w.maps node).mTexture ∧
        ((drawLoop env node rest (i + 1) (drawOne node drw i w) t1).1.maps node).mCompiled
          = (w.maps node).mCompiled + (opsRun env node rest.length (i + 1) t1 + 1) ∧
        (drawLoop env node rest (i + 1) (drawOne node drw i w) t1).1.drawFbo = w.drawFbo ∧
        (drawLoop env node rest (i + 1) (drawOne node drw i w) t1).1.readFbo = w.readFbo ∧
        (drawLoop env node rest (i + 1) (drawOne node drw i w) t1).1.stateSetStack
          = w.stateSetStack ∧
        (∃ es, (drawLoop env node rest (i + 1) (drawOne node drw i w) t1).1.events
            = w.events ++ es ∧
          drawsOf es = (List.range' i (opsRun env node rest.length (i + 1) t1 + 1)).map
            (Prod.mk node) ∧ bindsOf es = []) ∧
        (drawLoop env node rest (i + 1) (drawOne node drw i w) t1).2
          = timeAfter env node rest.length (i + 1) t1 := by
      intro t1
      obtain ⟨a1, a2, a3, a4, a5, a6, a7, ⟨es2, he2, hdr2, hb2⟩, a9⟩ :=
        ih (i + 1) (drawOne node drw i w) t1
      refine ⟨fun j hj => by rw [a1 j hj, hne j hj], by rw [a2, hself], by rw [a3, hself],
        by rw [a4, hself]; simp only []; omega, by rw [a5, hd], by rw [a6, hr], by rw [a7, hs],
        ⟨es1 ++ es2, by rw [he2, he1, List.append_assoc], ?_, by
          rw [bindsOf_append, hb1, hb2]; rfl⟩, a9⟩
      rw [drawsOf_append, hdr1, hdr2, List.range'_succ]
      rfl
    cases t with
    | none =>
      simp only [drawLoop, List.length_cons, opsRun, timeAfter]
      exact go none
    | some t0 =>
      simp only [drawLoop, List.length_cons, opsRun, timeAfter]
      split
      · exact stop _
      · exact go _

/-! ## `compile` -/

/-- The liveness check: an abandoned job is marked complete and nothing else happens. -/
theorem compile_abandoned (env : Env) (mFBO : Option Nat) (node : Nat) (w : World)
    (t : Option Int) (h : Abandoned env node) :
    compile env mFBO node w t = (w.setCompiled node (w.maps node).mDrawables.length, t) := by
  unfold Abandoned at h
  simp [compile, h]

/-- A live job whose render destination cannot be bound: the heap and the time
left are untouched and no operation is executed. -/
theorem compile_bind_fail (env : Env) (mFBO : Option Nat) (node : Nat) (w : World)
    (t : Option Int) (hl : ¬ Abandoned env node) (hb : ¬ BindOk env mFBO node) :
    (compile env mFBO node w t).1.maps = w.maps ∧ (compile env mFBO node w t).2 = t ∧
    ∃ es, (compile env mFBO node w t).1.events = w.events ++ es ∧ drawsOf es = [] := by
  unfold Abandoned at hl
  unfold BindOk at hb
  cases mFBO with
  | none =>
    have hc : compile env none node w t = (w, t) := by simp [compile, hl]
    rw [hc]; exact ⟨rfl, rfl, [], (List.append_nil _).symm, rfl⟩
  | some fbo =>
    cases hsup : env.isFrameBufferObjectSupported with
    | false =>
      have hc : compile env (some fbo) node w t = (w, t) := by simp [compile, hl, hsup]
      rw [hc]; exact ⟨rfl, rfl, [], (List.append_nil _).symm, rfl⟩
    | true =>
      have hc : env.framebufferComplete node = false := by
        cases hcc : env.framebufferComplete node with
        | false => rfl
        | true => exact absurd ⟨rfl, hsup, hcc⟩ hb
      simp only [compile, hl, hsup, hc, if_false, Bool.not_false, Bool.not_true, if_true]
      refine ⟨rfl, rfl, [GLEvent.attachAndApply node, GLEvent.checkFramebufferStatus,
        GLEvent.bindFramebuffer (defaultFboId env), GLEvent.errorAttachingFBO], ?_, rfl⟩
      simp [World.log, World.bindFramebuffer]

/-- A live job whose render destination is bound: the `for` loop runs from
`mCompiled` on. -/
theorem compile_bind_ok (env : Env) (mFBO : Option Nat) (node : Nat) (w : World)
    (t : Option Int) (hl : ¬ Abandoned env node) (hb : BindOk env mFBO node) :
    (∀ j, j ≠ node → (compile env mFBO node w t).1.maps j = w.maps j) ∧
    ((compile env mFBO node w t).1.maps node).mDrawables = (w.maps node).mDrawables ∧
    ((compile env mFBO node w t).1.maps node).mTexture = (w.maps node).mTexture ∧
    ((compile env mFBO node w t).1.maps node).mCompiled = (w.maps node).mCompiled +
      opsRun env node ((w.maps node).mDrawables.length - (w.maps node).mCompiled)
        (w.maps node).mCompiled t ∧
    (∃ es, (compile env mFBO node w t).1.events = w.events ++ es ∧
      drawsOf es = (List.range' (w.maps node).mCompiled
        (opsRun env node ((w.maps node).mDrawables.length - (w.maps node).mCompiled)
          (w.maps node).mCompiled t)).map (Prod.mk node) ∧
      bindsOf es = [node]) ∧
    (compile env mFBO node w t).2 =
      timeAfter env node ((w.maps node).mDrawables.length - (w.maps node).mCompiled)
        (w.maps node).mCompiled t := by
  unfold Abandoned at hl
  obtain ⟨h1, h2, h3⟩ := hb
  obtain ⟨fbo, rfl⟩ := Option.isSome_iff_exists.mp h1
  simp only [compile, hl, h2, h3, if_false, Bool.not_true]
  obtain ⟨a1, a2, a3, a4, _, _, _, ⟨es, he, hdr, hbi⟩, a9⟩ :=
    drawLoop_spec env node ((w.maps node).mDrawables.drop (w.maps node).mCompiled)
      (w.maps node).mCompiled
      (World.log { w with drawFbo := fbo, events := w.events ++ [GLEvent.attachAndApply node] }
        [GLEvent.checkFramebufferStatus]) t
  rw [List.length_drop] at a4 hdr a9
  refine ⟨a1, a2, a3, a4, ?_, a9⟩
  refine ⟨[GLEvent.attachAndApply node, GLEvent.checkFramebufferStatus] ++ es ++
    [GLEvent.haveAppliedViewport, GLEvent.bindFramebuffer (defaultFboId env)], ?_, ?_, ?_⟩
  · simp only [World.log, World.bindFramebuffer] at he ⊢
    rw [he]; simp
  · rw [drawsOf_append, drawsOf_append, hdr]; simp [drawsOf]
  · rw [bindsOf_append, bindsOf_append, hbi]; simp [bindsOf]

theorem compile_maps_ne (env : Env) (mFBO : Option Nat) (node : Nat) (w : World)
    (t : Option Int) (j : Nat) (h : j ≠ node) :
    (compile env mFBO node w t).1.maps j = w.maps j := by
  by_cases ha : Abandoned env node
  · rw [compile_abandoned env mFBO node w t ha]; simp [h]
  · by_cases hb : BindOk env mFBO node
    · exact (compile_bind_ok env mFBO node w t ha hb).1 j h
    · rw [(compile_bind_fail env mFBO node w t ha hb).1]

theorem compile_drawables (env : Env) (mFBO : Option Nat) (node : Nat) (w : World)
    (t : Option Int) (j : Nat) :
    ((compile env mFBO node w t).1.maps j).mDrawables = (w.maps j).mDrawables ∧
    ((compile env mFBO node w t).1.maps j).mTexture = (w.maps j).mTexture := by
  by_cases h : j = node
  · subst h
    by_cases ha : Abandoned env j
    · rw [compile_abandoned env mFBO j w t ha]; simp
    · by_cases hb : BindOk env mFBO j
      · exact ⟨(compile_bind_ok env mFBO j w t ha hb).2.1,
          (compile_bind_ok env mFBO j w t ha hb).2.2.1⟩
      · rw [(compile_bind_fail env mFBO j w t ha hb).1]; exact ⟨rfl, rfl⟩
  · rw [compile_maps_ne env mFBO node w t j h]; exact ⟨rfl, rfl⟩

/-- The progress of the compiled job does not go down and stays within bounds. -/
theorem compile_progress (env : Env) (mFBO : Option Nat) (node : Nat) (w : World)
    (t : Option Int) (hB : (w.maps node).Bounded) :
    (w.maps node).mCompiled ≤ ((compile env mFBO node w t).1.maps node).mCompiled ∧
    ((compile env mFBO node w t).1.maps node).mCompiled ≤ (w.maps node).mDrawables.length := by
  unfold CompositeMap.Bounded at hB
  by_cases ha : Abandoned env node
  · rw [compile_abandoned env mFBO node w t ha]; simp; exact hB
  · by_cases hb : BindOk env mFBO node
    · rw [(compile_bind_ok env mFBO node w t ha hb).2.2.2.1]
      have := opsRun_le env node ((w.maps node).mDrawables.length - (w.maps node).mCompiled)
        (w.maps node).mCompiled t
      omega
    · rw [(compile_bind_fail env mFBO node w t ha hb).1]; exact ⟨le_refl _, hB⟩

/-- With a null `timeLeft`, a job that is abandoned or whose render destination
is bound ends complete. -/
theorem compile_none_complete (env : Env) (mFBO : Option Nat) (node : Nat) (w : World)
    (hB : (w.maps node).Bounded) (h : Abandoned env node ∨ BindOk env mFBO node) :
    ((compile env mFBO node w none).1.maps node).mCompiled = (w.maps node).mDrawables.length := by
  unfold CompositeMap.Bounded at hB
  by_cases ha : Abandoned env node
  · rw [compile_abandoned env mFBO node w none ha]; simp
  · have hb : BindOk env mFBO node := h.resolve_left ha
    rw [(compile_bind_ok env mFBO node w none ha hb).2.2.2.1, opsRun_none]
    omega

/-- The log only grows, and the operations a call executes are operations of
the compiled job with indices from the old progress up to the new one. -/
theorem compile_events (env : Env) (mFBO : Option Nat) (node : Nat) (w : World)
    (t : Option Int) :
    ∃ es, (compile env mFBO node w t).1.events = w.events ++ es ∧
      (¬ Abandoned env node → drawsOf es = (List.range' (w.maps node).mCompiled
        (((compile env mFBO node w t).1.maps node).mCompiled - (w.maps node).mCompiled)).map
          (Prod.mk node)) ∧
      (Abandoned env node → drawsOf es = []) := by
  by_cases ha : Abandoned env node
  · rw [compile_abandoned env mFBO node w t ha]
    exact ⟨[], by simp, fun h => absurd ha h, fun _ => rfl⟩
  · by_cases hb : BindOk env mFBO node
    · obtain ⟨_, _, _, a4, ⟨es, he, hdr, _⟩, _⟩ := compile_bind_ok env mFBO node w t ha hb
      refine ⟨es, he, fun _ => ?_, fun h => absurd h ha⟩
      rw [hdr, a4]; simp
    · obtain ⟨hm, _, es, he, hdr⟩ := compile_bind_fail env mFBO node w t ha hb
      refine ⟨es, he, fun _ => ?_, fun h => absurd h ha⟩
      rw [hdr, hm]; simp

/-! ## The relation between the worlds before and after compiling -/

theorem Advances.refl (L : List Nat) (w : World) (hB : AllBounded w) : Advances L w w :=
  ⟨fun j => ⟨rfl, rfl, le_refl _, hB j⟩, fun _ _ => rfl, [], (List.append_nil _).symm,
    List.nodup_nil, fun q hq => by simp [drawsOf] at hq⟩

theorem Advances.allBounded {L : List Nat} {w w1 : World} (h : Advances L w w1) :
    AllBounded w1 := fun j => (h.1 j).2.2.2

theorem Advances.mono {L L1 : List Nat} {w w1 : World} (h : Advances L w w1)
    (hsub : ∀ j, j ∈ L → j ∈ L1) : Advances L1 w w1 := by
  obtain ⟨h1, h2, es, he, hn, hq⟩ := h
  exact ⟨h1, fun j hj => h2 j (fun hin => hj (hsub j hin)), es, he, hn,
    fun q hqm => ⟨hsub _ (hq q hqm).1, (hq q hqm).2⟩⟩

theorem Advances.trans {L : List Nat} {w w1 w2 : World} (h : Advances L w w1)
    (h' : Advances L w1 w2) : Advances L w w2 := by
  obtain ⟨a1, a2, es, he, hn, hq⟩ := h
  obtain ⟨b1, b2, es', he', hn', hq'⟩ := h'
  refine ⟨fun j => ?_, fun j hj => by rw [b2 j hj, a2 j hj], es ++ es', ?_, ?_, ?_⟩
  · obtain ⟨x1, x2, x3, _⟩ := a1 j
    obtain ⟨y1, y2, y3, y4⟩ := b1 j
    exact ⟨y1.trans x1, y2.trans x2, le_trans x3 y3, y4⟩
  · rw [he', he, List.append_assoc]
  · rw [drawsOf_append]
    refine List.Nodup.append hn hn' ?_
    intro q hq1 hq2
    have c3 := (hq q hq1).2.2
    have c2 := (hq' q hq2).2.1
    omega
  · intro q hqm
    rw [drawsOf_append] at hqm
    rcases List.mem_append.mp hqm with hm | hm
    · obtain ⟨c1, c2, c3⟩ := hq q hm
      exact ⟨c1, c2, lt_of_lt_of_le c3 (b1 q.1).2.2.1⟩
    · obtain ⟨c1, c2, c3⟩ := hq' q hm
      exact ⟨c1, le_trans (a1 q.1).2.2.1 c2, c3⟩

/-- One call of `compile` advances the world on the compiled job only. -/
theorem compile_advances (env : Env) (mFBO : Option Nat) (node : Nat) (w : World)
    (t : Option Int) (hB : AllBounded w) : Advances [node] w (compile env mFBO node w t).1 := by
  refine ⟨fun j => ?_, fun j hj => ?_, ?_⟩
  · obtain ⟨d1, d2⟩ := compile_drawables env mFBO node w t j
    refine ⟨d1, d2, ?_, ?_⟩
    · by_cases h : j = node
      · subst h; exact (compile_progress env mFBO j w t (hB j)).1
      · rw [compile_maps_ne env mFBO node w t j h]
    · rw [d1]
      by_cases h : j = node
      · subst h; exact (compile_progress env mFBO j w t (hB j)).2
      · rw [compile_maps_ne env mFBO node w t j h]; exact hB j
  · exact compile_maps_ne env mFBO node w t j (by simpa using hj)
  · obtain ⟨es, he, hlive, hdead⟩ := compile_events env mFBO node w t
    refine ⟨es, he, ?_, fun q hq => ?_⟩
    · by_cases ha : Abandoned env node
      · rw [hdead ha]; exact List.nodup_nil
      · rw [hlive ha]
        exact List.Nodup.map (fun a b hab => (Prod.mk.inj hab).2) (List.nodup_range' _ _)
    by_cases ha : Abandoned env node
    · rw [hdead ha] at hq; simp at hq
    · rw [hlive ha] at hq
      obtain ⟨i, hi, rfl⟩ := List.mem_map.mp hq
      have hp := (compile_progress env mFBO node w t (hB node)).1
      have := List.mem_range'_1.mp hi
      simp only [List.mem_singleton, true_and]
      omega

/-! ## The loop over the immediate set -/

/-- What the first loop does to the renderer. -/
theorem immediateLoop_renderer (env : Env) (l : List Nat) (r : CompositeMapRenderer) (w : World) :
    (immediateLoop env l r w).1.mCompileSet = r.mCompileSet ∧
    (immediateLoop env l r w).1.mTimeAvailable = r.mTimeAvailable ∧
    (immediateLoop env l r w).1.mFBO = r.mFBO ∧
    (r.mImmediateCompileSet = l → (immediateLoop env l r w).1.mImmediateCompileSet = []) ∧
    (∀ a, a ∈ (immediateLoop env l r w).1.mCompiled ↔ a ∈ r.mCompiled ∨ a ∈ l) ∧
    (IsSet r.mCompiled → IsSet (immediateLoop env l r w).1.mCompiled) := by
  induction l generalizing r w with
  | nil => exact ⟨rfl, rfl, rfl, fun h => h, fun a => by simp [immediateLoop], fun h => h⟩
  | cons node rest ih =>
    obtain ⟨a1, a2, a3, a4, a5, a6⟩ :=
      ih (immediateBody env node rest r w).1 (immediateBody env node rest r w).2
    simp only [immediateLoop]
    refine ⟨a1, a2, a3, fun _ => a4 rfl, fun a => ?_, fun h => a6 (isSet_setInsert _ _ h)⟩
    rw [a5 a]
    simp only [immediateBody, mem_setInsert, List.mem_cons]
    tauto

/-- The first loop advances the world on the jobs of the immediate set only. -/
theorem immediateLoop_advances (env : Env) (l : List Nat) (r : CompositeMapRenderer) (w : World)
    (hB : AllBounded w) : Advances l w (immediateLoop env l r w).2 := by
  induction l generalizing r w with
  | nil => exact Advances.refl [] w hB
  | cons node rest ih =>
    simp only [immediateLoop]
    have h1 : Advances [node] w (immediateBody env node rest r w).2 :=
      compile_advances env r.mFBO node w none hB
    have h2 := ih (immediateBody env node rest r w).1 (immediateBody env node rest r w).2
      h1.allBounded
    exact (h1.mono (fun j hj => by simp at hj; simp [hj])).trans
      (h2.mono (fun j hj => List.mem_cons_of_mem _ hj))

/-- The first loop completes every job of the immediate set that is abandoned
or whose render destination is bound. -/
theorem immediateLoop_complete (env : Env) (l : List Nat) (r : CompositeMapRenderer) (w : World)
    (hB : AllBounded w) (j : Nat) (hj : j ∈ l) (hok : Abandoned env j ∨ BindOk env r.mFBO j) :
    ((immediateLoop env l r w).2.maps j).mCompiled = (w.maps j).mDrawables.length := by
  induction l generalizing r w with
  | nil => simp at hj
  | cons node rest ih =>
    simp only [immediateLoop]
    have h1 : Advances [node] w (immediateBody env node rest r w).2 :=
      compile_advances env r.mFBO node w none hB
    have hd : ((immediateBody env node rest r w).2.maps j).mDrawables = (w.maps j).mDrawables :=
      (h1.1 j).1
    by_cases hin : j ∈ rest
    · rw [ih (immediateBody env node rest r w).1 (immediateBody env node rest r w).2
        h1.allBounded hin hok, hd]
    · have hjn : j = node := by
        rcases List.mem_cons.mp hj with h | h
        · exact h
        · exact absurd h hin
      subst hjn
      have h2 := immediateLoop_advances env rest (immediateBody env j rest r w).1
        (immediateBody env j rest r w).2 h1.allBounded
      rw [h2.2.1 j hin]
      exact compile_none_complete env r.mFBO j w (hB j) hok

/-! ## The loop over the deferred set -/

theorem deferredLoop_nil (env : Env) (fuel : Nat) (r : CompositeMapRenderer) (w : World) (t : Int)
    (h : r.mCompileSet = []) : deferredLoop env fuel r w t = some (r, w, t) := by
  cases fuel <;> simp [deferredLoop, h]

theorem deferredLoop_stop (env : Env) (fuel : Nat) (r : CompositeMapRenderer) (w : World) (t : Int)
    (h : t ≤ 0) : deferredLoop env fuel r w t = some (r, w, t) := by
  have h' : ¬ t > 0 := by omega
  cases fuel <;> (unfold deferredLoop; split <;> simp [h'])

theorem deferredLoop_zero (env : Env) (r : CompositeMapRenderer) (w : World) (t : Int)
    (node : Nat) (rest : List Nat) (h : r.mCompileSet = node :: rest) (ht : 0 < t) :
    deferredLoop env 0 r w t = none := by
  simp [deferredLoop, h, ht]

theorem deferredLoop_succ (env : Env) (fuel : Nat) (r : CompositeMapRenderer) (w : World) (t : Int)
    (node : Nat) (rest : List Nat) (h : r.mCompileSet = node :: rest) (ht : 0 < t) :
    deferredLoop env (fuel + 1) r w t =
      deferredLoop env fuel (deferredBody env node rest r w t).1
        (deferredBody env node rest r w t).2.1 (deferredBody env node rest r w t).2.2 := by
  rw [deferredLoop]
  simp [h, ht]

/-- The world after one round of the second loop is the world after `compile`. -/
theorem deferredBody_world (env : Env) (node : Nat) (rest : List Nat) (r : CompositeMapRenderer)
    (w : World) (t : Int) :
    (deferredBody env node rest r w t).2.1 = (compile env r.mFBO node w (some t)).1 := by
  unfold deferredBody
  simp only []
  split <;> rfl

/-- The renderer after one round of the second loop: the job is moved to the
compiled set exactly when it is complete. -/
theorem deferredBody_renderer (env : Env) (node : Nat) (rest : List Nat) (r : CompositeMapRenderer)
    (w : World) (t : Int) :
    (((compile env r.mFBO node w (some t)).1.maps node).mDrawables.length ≤
        ((compile env r.mFBO node w (some t)).1.maps node).mCompiled ∧
      (deferredBody env node rest r w t).1 =
        { r with mCompiled := setInsert node r.mCompiled, mCompileSet := rest }) ∨
    (((compile env r.mFBO node w (some t)).1.maps node).mCompiled <
        ((compile env r.mFBO node w (some t)).1.maps node).mDrawables.length ∧
      (deferredBody env node rest r w t).1 = r) := by
  unfold deferredBody
  simp only []
  split
  · rename_i h; exact Or.inl ⟨h, rfl⟩
  · rename_i h; exact Or.inr ⟨by omega, rfl⟩

/-- When a job that is abandoned or bound is left incomplete by a round of the
second loop, the budget is used up. -/
theorem deferredBody_time (env : Env) (node : Nat) (rest : List Nat) (r : CompositeMapRenderer)
    (w : World) (t : Int) (hok : Abandoned env node ∨ BindOk env r.mFBO node)
    (hinc : ((compile env r.mFBO node w (some t)).1.maps node).mCompiled <
      ((compile env r.mFBO node w (some t)).1.maps node).mDrawables.length) :
    (deferredBody env node rest r w t).2.2 ≤ 0 := by
  have ht : (deferredBody env node rest r w t).2.2 =
      (compile env r.mFBO node w (some t)).2.getD t := by
    unfold deferredBody
    simp only []
    split <;> rfl
  rw [ht]
  by_cases ha : Abandoned env node
  · rw [compile_abandoned env r.mFBO node w (some t) ha] at hinc
    simp at hinc
  · have hb : BindOk env r.mFBO node := hok.resolve_left ha
    obtain ⟨_, a2, _, a4, _, a6⟩ := compile_bind_ok env r.mFBO node w (some t) ha hb
    rw [a2, a4] at hinc
    obtain ⟨t1, h1, h2⟩ := timeAfter_of_opsRun_lt env node
      ((w.maps node).mDrawables.length - (w.maps node).mCompiled) (w.maps node).mCompiled t
      (by omega)
    rw [a6, h1]
    exact h2

/-- What the second loop has done when it returns. -/
theorem deferredLoop_result (env : Env) (fuel : Nat) (r : CompositeMapRenderer) (w : World)
    (t : Int) (hB : AllBounded w) (r1 : CompositeMapRenderer) (w1 : World) (t1 : Int)
    (h : deferredLoop env fuel r w t = some (r1, w1, t1)) :
    r1.mImmediateCompileSet = r.mImmediateCompileSet ∧
    r1.mTimeAvailable = r.mTimeAvailable ∧
    r1.mFBO = r.mFBO ∧
    Advances r.mCompileSet w w1 ∧
    (∃ done, r.mCompileSet = done ++ r1.mCompileSet ∧
      (∀ a, a ∈ r1.mCompiled ↔ a ∈ r.mCompiled ∨ a ∈ done) ∧
      ∀ j ∈ done, (w1.maps j).mCompiled = (w1.maps j).mDrawables.length) ∧
    (IsSet r.mCompiled → IsSet r1.mCompiled) ∧
    (r1.mCompileSet = [] ∨ t1 ≤ 0) := by
  induction fuel generalizing r w t with
  | zero =>
    cases hs : r.mCompileSet with
    | nil =>
      rw [deferredLoop_nil env 0 r w t hs] at h
      simp only [Option.some.injEq, Prod.mk.injEq] at h
      obtain ⟨rfl, rfl, rfl⟩ := h
      exact ⟨rfl, rfl, rfl, Advances.refl _ _ hB, ⟨[], by simp [hs], by simp, by simp⟩,
        fun x => x, Or.inl hs⟩
    | cons node rest =>
      by_cases ht : 0 < t
      · rw [deferredLoop_zero env r w t node rest hs ht] at h; simp at h
      · rw [deferredLoop_stop env 0 r w t (by omega)] at h
        simp only [Option.some.injEq, Prod.mk.injEq] at h
        obtain ⟨rfl, rfl, rfl⟩ := h
        exact ⟨rfl, rfl, rfl, Advances.refl _ _ hB, ⟨[], by simp [hs], by simp, by simp⟩,
          fun x => x, Or.inr (by omega)⟩
  | succ fuel ih =>
    cases hs : r.mCompileSet with
    | nil =>
      rw [deferredLoop_nil env _ r w t hs] at h
      simp only [Option.some.injEq, Prod.mk.injEq] at h
      obtain ⟨rfl, rfl, rfl⟩ := h
      exact ⟨rfl, rfl, rfl, Advances.refl _ _ hB, ⟨[], by simp [hs], by simp, by simp⟩,
        fun x => x, Or.inl hs⟩
    | cons node rest =>
      by_cases ht : 0 < t
      · rw [deferredLoop_succ env fuel r w t node rest hs ht] at h
        have hadv : Advances [node] w (deferredBody env node rest r w t).2.1 := by
          rw [deferredBody_world]; exact compile_advances env r.mFBO node w (some t) hB
        obtain ⟨b1, b2, b3, b4, ⟨done, b5, b6, b7⟩, b8, b9⟩ :=
          ih _ _ _ hadv.allBounded h
        have hadv' : Advances (node :: rest) w w1 :=
          (hadv.mono (fun j hj => by simp at hj; simp [hj])).trans
            (b4.mono (fun j hj => by
              rcases deferredBody_renderer env node rest r w t with ⟨_, he⟩ | ⟨_, he⟩
              · rw [he] at hj; exact List.mem_cons_of_mem _ hj
              · rw [he, hs] at hj; exact hj))
        rcases deferredBody_renderer env node rest r w t with ⟨hc, he⟩ | ⟨_, he⟩
        · rw [he] at b1 b2 b3 b5 b6 b8
          simp only [] at b1 b2 b3 b5 b6 b8
          refine ⟨b1, b2, b3, hadv', ⟨node :: done, by rw [b5]; rfl, fun a => ?_, ?_⟩,
            fun hset => b8 (isSet_setInsert _ _ hset), b9⟩
          · rw [b6 a, mem_setInsert, List.mem_cons]; tauto
          · intro j hj
            rcases List.mem_cons.mp hj with rfl | hj
            · rw [← deferredBody_world env j rest r w t] at hc
              have m1 := (b4.1 j).1
              have m2 := (b4.1 j).2.2.1
              have m3 := (b4.1 j).2.2.2
              rw [m1] at m3 ⊢
              omega
            · exact b7 j hj
        · rw [he] at b1 b2 b3 b5 b6 b8
          rw [hs] at b5
          exact ⟨b1, b2, b3, hadv', ⟨done, b5, b6, b7⟩, b8, b9⟩
      · rw [deferredLoop_stop env _ r w t (by omega)] at h
        simp only [Option.some.injEq, Prod.mk.injEq] at h
        obtain ⟨rfl, rfl, rfl⟩ := h
        exact ⟨rfl, rfl, rfl, Advances.refl _ _ hB, ⟨[], by simp [hs], by simp, by simp⟩,
          fun x => x, Or.inr (by omega)⟩

/-- The second loop returns when every job of the deferred set is abandoned or
has its render destination bound: one unit of fuel per job is enough. -/
theorem deferredLoop_terminates (env : Env) (fuel : Nat) (r : CompositeMapRenderer) (w : World)
    (t : Int) (hok : ∀ j ∈ r.mCompileSet, Abandoned env j ∨ BindOk env r.mFBO j)
    (hfuel : r.mCompileSet.length ≤ fuel) :
    (deferredLoop env fuel r w t).isSome = true := by
  induction fuel generalizing r w t with
  | zero =>
    have hs : r.mCompileSet = [] := List.length_eq_zero.mp (by omega)
    rw [deferredLoop_nil env 0 r w t hs]; rfl
  | succ fuel ih =>
    cases hs : r.mCompileSet with
    | nil => rw [deferredLoop_nil env _ r w t hs]; rfl
    | cons node rest =>
      by_cases ht : 0 < t
      · rw [deferredLoop_succ env fuel r w t node rest hs ht]
        have hnode := hok node (by rw [hs]; exact List.mem_cons_self _ _)
        rcases deferredBody_renderer env node rest r w t with ⟨_, he⟩ | ⟨hinc, he⟩
        · apply ih
          · rw [he]
            intro j hj
            exact hok j (by rw [hs]; exact List.mem_cons_of_mem _ hj)
          · rw [he]
            rw [hs] at hfuel
            simp only [List.length_cons] at hfuel ⊢
            omega
        · rw [deferredLoop_stop env fuel _ _ _ (deferredBody_time env node rest r w t hnode hinc)]
          rfl
      · rw [deferredLoop_stop env _ r w t (by omega)]; rfl

/-! ## One pass -/

theorem drawImplementation_empty (env : Env) (fuel : Nat) (r : CompositeMapRenderer) (w : World)
    (hi : r.mImmediateCompileSet = []) (hd : r.mCompileSet = []) :
    drawImplementation env fuel r w = some ({ r with mCompiled := [] }, w, none) := by
  simp [drawImplementation, hi, hd]

theorem drawImplementation_nonempty (env : Env) (fuel : Nat) (r : CompositeMapRenderer) (w : World)
    (h : r.mImmediateCompileSet ≠ [] ∨ r.mCompileSet ≠ []) :
    drawImplementation env fuel r w =
      (deferredLoop env fuel
        (immediateLoop env r.mImmediateCompileSet { r with mCompiled := [] } w).1
        (immediateLoop env r.mImmediateCompileSet { r with mCompiled := [] } w).2
        r.mTimeAvailable).map (fun x => (x.1, x.2.1, some x.2.2)) := by
  have hne : (r.mImmediateCompileSet.isEmpty && r.mCompileSet.isEmpty) = false := by
    rcases h with h | h
    · cases hl : r.mImmediateCompileSet with
      | nil => exact absurd hl h
      | cons a l => simp
    · cases hl : r.mCompileSet with
      | nil => exact absurd hl h
      | cons a l => simp
  unfold drawImplementation
  simp only [hne, Bool.false_eq_true, if_false,
    (immediateLoop_renderer env r.mImmediateCompileSet { r with mCompiled := [] } w).2.1]
  cases deferredLoop env fuel
    (immediateLoop env r.mImmediateCompileSet { r with mCompiled := [] } w).1
    (immediateLoop env r.mImmediateCompileSet { r with mCompiled := [] } w).2
    r.mTimeAvailable with
  | none => rfl
  | some x => rfl

/-- What a pass that returns has done. -/
theorem pass_result (env : Env) (fuel : Nat) (r : CompositeMapRenderer) (w : World)
    (hB : AllBounded w) (r1 : CompositeMapRenderer) (w1 : World) (t1 : Option Int)
    (h : drawImplementation env fuel r w = some (r1, w1, t1)) :
    r1.mImmediateCompileSet = [] ∧
    r1.mTimeAvailable = r.mTimeAvailable ∧
    r1.mFBO = r.mFBO ∧
    Advances (r.mImmediateCompileSet ++ r.mCompileSet) w w1 ∧
    (∃ done, r.mCompileSet = done ++ r1.mCompileSet ∧
      (∀ a, a ∈ r1.mCompiled ↔ a ∈ r.mImmediateCompileSet ∨ a ∈ done) ∧
      ∀ j ∈ done, (w1.maps j).mCompiled = (w1.maps j).mDrawables.length) ∧
    IsSet r1.mCompiled ∧
    (∀ j ∈ r.mImmediateCompileSet, Abandoned env j ∨ BindOk env r.mFBO j →
      (w1.maps j).mCompiled = (w1.maps j).mDrawables.length) := by
  by_cases hemp : r.mImmediateCompileSet = [] ∧ r.mCompileSet = []
  · rw [drawImplementation_empty env fuel r w hemp.1 hemp.2] at h
    simp only [Option.some.injEq, Prod.mk.injEq] at h
    obtain ⟨rfl, rfl, rfl⟩ := h
    refine ⟨hemp.1, rfl, rfl, Advances.refl _ _ hB, ⟨[], by simp [hemp.2], ?_, by simp⟩,
      isSet_nil, ?_⟩
    · intro a; simp [hemp.1]
    · intro j hj; rw [hemp.1] at hj; simp at hj
  · have hne : r.mImmediateCompileSet ≠ [] ∨ r.mCompileSet ≠ [] := by
      by_contra hc
      push_neg at hc
      exact hemp hc
    rw [drawImplementation_nonempty env fuel r w hne] at h
    obtain ⟨i1, i2, i3, i4, i5, i6⟩ :=
      immediateLoop_renderer env r.mImmediateCompileSet { r with mCompiled := [] } w
    have iadv := immediateLoop_advances env r.mImmediateCompileSet { r with mCompiled := [] } w hB
    cases hdl : deferredLoop env fuel
      (immediateLoop env r.mImmediateCompileSet { r with mCompiled := [] } w).1
      (immediateLoop env r.mImmediateCompileSet { r with mCompiled := [] } w).2
      r.mTimeAvailable with
    | none => rw [hdl] at h; simp at h
    | some x =>
      obtain ⟨r2, w2, t2⟩ := x
      rw [hdl] at h
      simp only [Option.map_some', Option.some.injEq, Prod.mk.injEq] at h
      obtain ⟨rfl, rfl, rfl⟩ := h
      obtain ⟨d1, d2, d3, d4, ⟨done, d5, d6, d7⟩, d8, _⟩ :=
        deferredLoop_result env fuel _ _ _ iadv.allBounded _ _ _ hdl
      rw [i1] at d4 d5
      refine ⟨by rw [d1]; exact i4 rfl, by rw [d2, i2], by rw [d3, i3], ?_,
        ⟨done, d5, fun a => ?_, d7⟩, d8 (i6 isSet_nil), ?_⟩
      · exact (iadv.mono (fun j hj => List.mem_append_left _ hj)).trans
          (d4.mono (fun j hj => List.mem_append_right _ hj))
      · rw [d6 a, i5 a]; simp
      · intro j hj hok
        have c1 := immediateLoop_complete env r.mImmediateCompileSet { r with mCompiled := [] } w
          hB j hj hok
        have m1 := (d4.1 j).1
        have m2 := (d4.1 j).2.2.1
        have m3 := (d4.1 j).2.2.2
        have m4 := (iadv.1 j).1
        rw [m1, m4] at m3 ⊢
        omega

/-- A pass returns when the budget is not positive or when every job of the
deferred set is abandoned or has its render destination bound. -/
theorem pass_returns (env : Env) (r : CompositeMapRenderer) (w : World)
    (hok : r.mTimeAvailable ≤ 0 ∨ ∀ j ∈ r.mCompileSet, Abandoned env j ∨ BindOk env r.mFBO j)
    (fuel : Nat) (hfuel : r.mCompileSet.length ≤ fuel) :
    (drawImplementation env fuel r w).isSome = true := by
  by_cases hemp : r.mImmediateCompileSet = [] ∧ r.mCompileSet = []
  · rw [drawImplementation_empty env fuel r w hemp.1 hemp.2]; rfl
  · have hne : r.mImmediateCompileSet ≠ [] ∨ r.mCompileSet ≠ [] := by
      by_contra hc
      push_neg at hc
      exact hemp hc
    rw [drawImplementation_nonempty env fuel r w hne]
    obtain ⟨i1, i2, i3, _, _, _⟩ :=
      immediateLoop_renderer env r.mImmediateCompileSet { r with mCompiled := [] } w
    rw [Option.isSome_map']
    rcases hok with hle | hok
    · rw [deferredLoop_stop env fuel _ _ _ hle]; rfl
    · apply deferredLoop_terminates
      · rw [i1, i3]; exact hok
      · rw [i1]; exact hfuel

/-! ## The claims -/

/-- The first loop touches only jobs of the immediate set, whatever their progress. -/
theorem immediateLoop_frame (env : Env) (l : List Nat) (r : CompositeMapRenderer) (w : World) :
    (∀ j, j ∉ l → (immediateLoop env l r w).2.maps j = w.maps j) ∧
    ∃ es, (immediateLoop env l r w).2.events = w.events ++ es ∧ ∀ q ∈ drawsOf es, q.1 ∈ l := by
  induction l generalizing r w with
  | nil => exact ⟨fun _ _ => rfl, [], (List.append_nil _).symm, fun q hq => by simp [drawsOf] at hq⟩
  | cons node rest ih =>
    simp only [immediateLoop]
    obtain ⟨f1, es2, he2, hq2⟩ :=
      ih (immediateBody env node rest r w).1 (immediateBody env node rest r w).2
    obtain ⟨es1, he1, hlive, hdead⟩ := compile_events env r.mFBO node w none
    refine ⟨fun j hj => ?_, es1 ++ es2, ?_, fun q hq => ?_⟩
    · rw [f1 j (fun hin => hj (List.mem_cons_of_mem _ hin))]
      exact compile_maps_ne env r.mFBO node w none j (fun h => hj (by simp [h]))
    · rw [he2]
      show (compile env r.mFBO node w none).1.events ++ es2 = _
      rw [he1, List.append_assoc]
    · rw [drawsOf_append] at hq
      rcases List.mem_append.mp hq with hm | hm
      · by_cases ha : Abandoned env node
        · rw [hdead ha] at hm; simp at hm
        · rw [hlive ha] at hm
          obtain ⟨i, _, rfl⟩ := List.mem_map.mp hm
          simp
      · exact List.mem_cons_of_mem _ (hq2 q hm)

/-- C1, amended. In every state whose jobs have `mCompiled ≤ mDrawables.size()`
and for every time budget: when a pass returns, the immediate set is empty, and
every job that was in the immediate set at the start and is abandoned or has its
render destination bound has `mCompiled = mDrawables.size()` and is in the
compiled set; and a pass returns when the budget is not positive or every job of
the deferred set is abandoned or has its render destination bound. -/
theorem immediate_jobs_compiled_when_bound (env : Env) (r : CompositeMapRenderer) (w : World)
    (hB : AllBounded w) :
    (∀ fuel r1 w1 t1, drawImplementation env fuel r w = some (r1, w1, t1) →
      r1.mImmediateCompileSet = [] ∧
      ∀ j ∈ r.mImmediateCompileSet, Abandoned env j ∨ BindOk env r.mFBO j →
        (w1.maps j).mCompiled = (w1.maps j).mDrawables.length ∧ j ∈ r1.mCompiled) ∧
    ((r.mTimeAvailable ≤ 0 ∨ ∀ j ∈ r.mCompileSet, Abandoned env j ∨ BindOk env r.mFBO j) →
      ∀ fuel, r.mCompileSet.length ≤ fuel → (drawImplementation env fuel r w).isSome = true) := by
  refine ⟨fun fuel r1 w1 t1 h => ?_, fun hok fuel hfuel => pass_returns env r w hok fuel hfuel⟩
  obtain ⟨p1, _, _, _, ⟨done, _, p6, _⟩, _, p9⟩ := pass_result env fuel r w hB r1 w1 t1 h
  exact ⟨p1, fun j hj hok => ⟨p9 j hj hok, (p6 j).mpr (Or.inl hj)⟩⟩

/-- C1, witness: a renderer with the immediate job 7 and the deferred job 9,
both of three operations and bound. -/
theorem immediate_jobs_compiled_when_bound_witness :
    AllBounded (World.init fun _ => sampleJob 3) ∧
    ∃ r1 w1 t1,
      drawImplementation (envBound 1) 2
        (addCompositeMap (addCompositeMap (CompositeMapRenderer.new 5 1) 7 true) 9 false)
        (World.init fun _ => sampleJob 3) = some (r1, w1, t1) ∧
      r1.mImmediateCompileSet = [] ∧
      ((w1.maps 7).mCompiled = (w1.maps 7).mDrawables.length ∧ 7 ∈ r1.mCompiled) :=
  ⟨fun _ => Nat.zero_le _, _, _, _, rfl,
    ((immediate_jobs_compiled_when_bound (envBound 1)
      (addCompositeMap (addCompositeMap (CompositeMapRenderer.new 5 1) 7 true) 9 false)
      (World.init fun _ => sampleJob 3) (fun _ => Nat.zero_le _)).1 2 _ _ _ rfl).1,
    ((immediate_jobs_compiled_when_bound (envBound 1)
      (addCompositeMap (addCompositeMap (CompositeMapRenderer.new 5 1) 7 true) 9 false)
      (World.init fun _ => sampleJob 3) (fun _ => Nat.zero_le _)).1 2 _ _ _ rfl).2 7
      (by decide) (Or.inr ⟨rfl, rfl, rfl⟩)⟩

/-- C1, counterexample: without framebuffer objects the immediate job 7, of one
operation, is still at `mCompiled = 0` after the pass. -/
theorem immediate_job_left_incomplete :
    ∃ r1 w1 t1,
      drawImplementation envNoFbo 1 (addCompositeMap (CompositeMapRenderer.new 5 1) 7 true)
        (World.init fun _ => sampleJob 1) = some (r1, w1, t1) ∧
      7 ∈ (addCompositeMap (CompositeMapRenderer.new 5 1) 7 true).mImmediateCompileSet ∧
      (w1.maps 7).mCompiled = 0 ∧ (w1.maps 7).mDrawables.length = 1 :=
  ⟨_, _, _, rfl, by decide, by decide, by decide⟩

/-- C2, at the failing input: the deferred job 3, of one operation, is referenced
from outside and framebuffer objects are not supported; with the budget of 5
ticks the pass does not return, whatever the fuel. -/
theorem pass_hangs_without_fbo (fuel : Nat) :
    drawImplementation envNoFbo fuel (addCompositeMap (CompositeMapRenderer.new 5 1) 3 false)
      (World.init fun _ => sampleJob 1) = none := by
  have hloop : deferredLoop envNoFbo fuel (addCompositeMap (CompositeMapRenderer.new 5 1) 3 false)
      (World.init fun _ => sampleJob 1) 5 = none := by
    induction fuel with
    | zero => rfl
    | succ fuel ih =>
      rw [deferredLoop_succ envNoFbo fuel _ _ 5 3 [] rfl (by decide)]
      exact ih
  rw [drawImplementation_nonempty envNoFbo fuel _ _ (Or.inr (by decide))]
  show Option.map _ (deferredLoop envNoFbo fuel
    (addCompositeMap (CompositeMapRenderer.new 5 1) 3 false) (World.init fun _ => sampleJob 1) 5) = none
  rw [hloop]
  rfl

/-- C3. With disjoint queues and a time budget of 0, a pass returns, whatever
the fuel, with the immediate set empty and the deferred set as it was; every
job of the deferred set is as it was, and no operation executed during the pass
is an operation of a job of the deferred set. -/
theorem zero_budget_leaves_deferred (env : Env) (r : CompositeMapRenderer) (w : World)
    (fuel : Nat) (h0 : r.mTimeAvailable = 0)
    (hdisj : ∀ j ∈ r.mImmediateCompileSet, j ∉ r.mCompileSet) :
    ∃ r1 w1 t1, drawImplementation env fuel r w = some (r1, w1, t1) ∧
      r1.mImmediateCompileSet = [] ∧
      r1.mCompileSet = r.mCompileSet ∧
      (∀ j ∈ r.mCompileSet, w1.maps j = w.maps j) ∧
      ∃ es, w1.events = w.events ++ es ∧ ∀ q ∈ drawsOf es, q.1 ∉ r.mCompileSet := by
  by_cases hemp : r.mImmediateCompileSet = [] ∧ r.mCompileSet = []
  · refine ⟨_, _, _, drawImplementation_empty env fuel r w hemp.1 hemp.2, hemp.1, rfl,
      fun _ _ => rfl, [], (List.append_nil _).symm, fun q hq => by simp [drawsOf] at hq⟩
  · have hne : r.mImmediateCompileSet ≠ [] ∨ r.mCompileSet ≠ [] := by
      by_contra hc
      push_neg at hc
      exact hemp hc
    obtain ⟨i1, _, _, i4, _, _⟩ :=
      immediateLoop_renderer env r.mImmediateCompileSet { r with mCompiled := [] } w
    obtain ⟨f1, es, he, hq⟩ :=
      immediateLoop_frame env r.mImmediateCompileSet { r with mCompiled := [] } w
    refine ⟨(immediateLoop env r.mImmediateCompileSet { r with mCompiled := [] } w).1,
      (immediateLoop env r.mImmediateCompileSet { r with mCompiled := [] } w).2,
      some r.mTimeAvailable, ?_, i4 rfl, i1, fun j hj => f1 j (fun hin => hdisj j hin hj), es, he,
      fun q hqm hin => hdisj _ (hq q hqm) hin⟩
    rw [drawImplementation_nonempty env fuel r w hne,
      deferredLoop_stop env fuel _ _ _ (le_of_eq h0)]
    rfl

/-- C3, witness: the immediate job 7 and the deferred job 9, budget 0. -/
theorem zero_budget_leaves_deferred_witness :
    ∃ r1 w1 t1,
      drawImplementation (envBound 1) 0
        (addCompositeMap (addCompositeMap (CompositeMapRenderer.new 0 1) 7 true) 9 false)
        (World.init fun _ => sampleJob 3) = some (r1, w1, t1) ∧
      r1.mImmediateCompileSet = [] ∧
      r1.mCompileSet = [9] ∧
      (∀ j ∈ [9], w1.maps j = (World.init fun _ => sampleJob 3).maps j) ∧
      ∃ es, w1.events = (World.init fun _ => sampleJob 3).events ++ es ∧
        ∀ q ∈ drawsOf es, q.1 ∉ [9] :=
  zero_budget_leaves_deferred (envBound 1)
    (addCompositeMap (addCompositeMap (CompositeMapRenderer.new 0 1) 7 true) 9 false)
    (World.init fun _ => sampleJob 3) 0 rfl (by decide)

/-- C4. When `compile` is called on a job whose texture has reference count
`≤ 1`, with a null or a non-null `timeLeft`, it sets `mCompiled` to
`mDrawables.size()`, leaves the log (so executes no operation and binds
nothing), the framebuffer bindings and the time left as they were; the round of
either loop of a pass that compiles such a job erases it from its set and
inserts it into the compiled set. -/
theorem abandoned_job_skipped (env : Env) (r : CompositeMapRenderer) (w : World) (node : Nat)
    (rest : List Nat) (t : Option Int) (tl : Int) (hab : env.referenceCount node ≤ 1)
    (hset : IsSet (node :: rest)) :
    (((compile env r.mFBO node w t).1.maps node).mCompiled = (w.maps node).mDrawables.length ∧
      ((compile env r.mFBO node w t).1.maps node).mDrawables = (w.maps node).mDrawables ∧
      (compile env r.mFBO node w t).1.events = w.events ∧
      (compile env r.mFBO node w t).1.drawFbo = w.drawFbo ∧
      (compile env r.mFBO node w t).1.readFbo = w.readFbo ∧
      (compile env r.mFBO node w t).2 = t) ∧
    ((immediateBody env node rest r w).1.mImmediateCompileSet = rest ∧
      node ∉ (immediateBody env node rest r w).1.mImmediateCompileSet ∧
      node ∈ (immediateBody env node rest r w).1.mCompiled ∧
      ((immediateBody env node rest r w).2.maps node).mCompiled =
        ((immediateBody env node rest r w).2.maps node).mDrawables.length) ∧
    ((deferredBody env node rest r w tl).1.mCompileSet = rest ∧
      node ∉ (deferredBody env node rest r w tl).1.mCompileSet ∧
      node ∈ (deferredBody env node rest r w tl).1.mCompiled ∧
      ((deferredBody env node rest r w tl).2.1.maps node).mCompiled =
        ((deferredBody env node rest r w tl).2.1.maps node).mDrawables.length) := by
  have ha : Abandoned env node := hab
  refine ⟨?_, ?_, ?_⟩
  · rw [compile_abandoned env r.mFBO node w t ha]
    simp
  · refine ⟨rfl, hset.head_not_mem, ?_, ?_⟩
    · simp [immediateBody, mem_setInsert]
    · show ((compile env r.mFBO node w none).1.maps node).mCompiled =
        ((compile env r.mFBO node w none).1.maps node).mDrawables.length
      rw [compile_abandoned env r.mFBO node w none ha]
      simp
  · have hc : ((compile env r.mFBO node w (some tl)).1.maps node).mCompiled =
        ((compile env r.mFBO node w (some tl)).1.maps node).mDrawables.length := by
      rw [compile_abandoned env r.mFBO node w (some tl) ha]
      simp
    rcases deferredBody_renderer env node rest r w tl with ⟨_, he⟩ | ⟨hlt, _⟩
    · rw [he, deferredBody_world]
      exact ⟨rfl, hset.head_not_mem, by simp [mem_setInsert], hc⟩
    · omega

/-- C4, witness: the abandoned job 4, of three operations, ahead of job 6. -/
theorem abandoned_job_skipped_witness :
    envAbandoned.referenceCount 4 ≤ 1 ∧ IsSet [4, 6] ∧
    ((compile envAbandoned (some 1) 4 (World.init fun _ => sampleJob 3) (some 5)).1.maps 4).mCompiled
      = 3 ∧
    (compile envAbandoned (some 1) 4 (World.init fun _ => sampleJob 3) (some 5)).1.events = [] ∧
    (deferredBody envAbandoned 4 [6] (CompositeMapRenderer.new 5 1)
      (World.init fun _ => sampleJob 3) 5).1.mCompileSet = [6] :=
  ⟨by decide, by decide,
    (abandoned_job_skipped envAbandoned (CompositeMapRenderer.new 5 1)
      (World.init fun _ => sampleJob 3) 4 [6] (some 5) 5 (by decide) (by decide)).1.1,
    (abandoned_job_skipped envAbandoned (CompositeMapRenderer.new 5 1)
      (World.init fun _ => sampleJob 3) 4 [6] (some 5) 5 (by decide) (by decide)).1.2.2.1,
    (abandoned_job_skipped envAbandoned (CompositeMapRenderer.new 5 1)
      (World.init fun _ => sampleJob 3) 4 [6] (some 5) 5 (by decide) (by decide)).2.2.1⟩

/-- A sequence of actions that runs to its end advances the world. -/
theorem runActions_advances (acts : List Action) (r : CompositeMapRenderer) (w : World)
    (hB : AllBounded w) (r1 : CompositeMapRenderer) (w1 : World)
    (h : runActions acts (r, w) = some (r1, w1)) : ∃ L, Advances L w w1 := by
  induction acts generalizing r w with
  | nil =>
    simp only [runActions, Option.some.injEq, Prod.mk.injEq] at h
    obtain ⟨_, rfl⟩ := h
    exact ⟨[], Advances.refl [] w hB⟩
  | cons a as ih =>
    simp only [runActions] at h
    cases a with
    | addCompositeMap j imm =>
      simp only [Action.apply] at h
      exact ih _ _ hB h
    | setImmediate j =>
      simp only [Action.apply] at h
      exact ih _ _ hB h
    | setTimeAvailableForCompile time =>
      simp only [Action.apply] at h
      exact ih _ _ hB h
    | drawImplementation env fuel =>
      simp only [Action.apply] at h
      cases hp : drawImplementation env fuel r w with
      | none => rw [hp] at h; simp at h
      | some res =>
        obtain ⟨r2, w2, t2⟩ := res
        rw [hp] at h
        simp only [] at h
        have hadv := (pass_result env fuel r w hB r2 w2 t2 hp).2.2.2.1
        obtain ⟨L, hL⟩ := ih _ _ hadv.allBounded h
        exact ⟨(r.mImmediateCompileSet ++ r.mCompileSet) ++ L,
          (hadv.mono (fun j hj => List.mem_append_left _ hj)).trans
            (hL.mono (fun j hj => List.mem_append_right _ hj))⟩

/-- C5, amended. For jobs with `mCompiled ≤ mDrawables.size()`: a call of
`compile` does not lower `mCompiled`; when the job is referenced from outside,
the operations the call executes are exactly those with the indices from the old
`mCompiled` up to, and excluding, the new one, each once and in order; when the
job is abandoned the call executes no operation. Over every sequence of
producer calls and passes that runs to its end, no `mCompiled` goes down, no
operation is executed twice, and every operation executed has an index at or
above the `mCompiled` at the start of the sequence. -/
theorem progress_monotone_operations_once (env : Env) (mFBO : Option Nat) (node : Nat)
    (w : World) (t : Option Int) (acts : List Action) (r r1 : CompositeMapRenderer) (w1 : World)
    (hB : AllBounded w) (hrun : runActions acts (r, w) = some (r1, w1)) :
    ((w.maps node).mCompiled ≤ ((compile env mFBO node w t).1.maps node).mCompiled ∧
      ∃ es, (compile env mFBO node w t).1.events = w.events ++ es ∧
        (1 < env.referenceCount node →
          drawsOf es = (List.range' (w.maps node).mCompiled
            (((compile env mFBO node w t).1.maps node).mCompiled - (w.maps node).mCompiled)).map
              (Prod.mk node)) ∧
        (env.referenceCount node ≤ 1 → drawsOf es = [])) ∧
    ((∀ j, (w.maps j).mCompiled ≤ (w1.maps j).mCompiled) ∧
      ∃ es, w1.events = w.events ++ es ∧ (drawsOf es).Nodup ∧
        ∀ q ∈ drawsOf es, (w.maps q.1).mCompiled ≤ q.2 ∧ q.2 < (w1.maps q.1).mCompiled) := by
  refine ⟨⟨(compile_progress env mFBO node w t (hB node)).1, ?_⟩, ?_⟩
  · obtain ⟨es, he, hlive, hdead⟩ := compile_events env mFBO node w t
    exact ⟨es, he, fun h => hlive (by unfold Abandoned; omega), fun h => hdead h⟩
  · obtain ⟨L, h1, _, es, he, hn, hq⟩ := runActions_advances acts r w hB r1 w1 hrun
    exact ⟨fun j => (h1 j).2.2.1, es, he, hn, fun q hqm => (hq q hqm).2⟩

/-- C5, witness: job 0 of four operations is submitted and two passes with a
budget of 2500 ticks run, every operation costing 1000 ticks. -/
theorem progress_monotone_operations_once_witness :
    AllBounded (World.init fun _ => sampleJob 4) ∧
    (((World.init fun _ => sampleJob 4).maps 0).mCompiled ≤
      ((compile (envBound 1000) (some 1) 0 (World.init fun _ => sampleJob 4) (some 2500)).1.maps
        0).mCompiled) ∧
    ∃ r1 w1, runActions [Action.addCompositeMap 0 false,
        Action.drawImplementation (envBound 1000) 1, Action.drawImplementation (envBound 1000) 1]
        (CompositeMapRenderer.new 2500 1, World.init fun _ => sampleJob 4) = some (r1, w1) ∧
      ∀ j, ((World.init fun _ => sampleJob 4).maps j).mCompiled ≤ (w1.maps j).mCompiled :=
  ⟨fun _ => Nat.zero_le _,
    (progress_monotone_operations_once (envBound 1000) (some 1) 0
      (World.init fun _ => sampleJob 4) (some 2500)
      [Action.addCompositeMap 0 false, Action.drawImplementation (envBound 1000) 1,
        Action.drawImplementation (envBound 1000) 1]
      (CompositeMapRenderer.new 2500 1) _ _ (fun _ => Nat.zero_le _) rfl).1.1,
    _, _, rfl,
    (progress_monotone_operations_once (envBound 1000) (some 1) 0
      (World.init fun _ => sampleJob 4) (some 2500)
      [Action.addCompositeMap 0 false, Action.drawImplementation (envBound 1000) 1,
        Action.drawImplementation (envBound 1000) 1]
      (CompositeMapRenderer.new 2500 1) _ _ (fun _ => Nat.zero_le _) rfl).2.1⟩

/-- C5, counterexample: `compile` on the abandoned job 4, of one operation and
with `mCompiled = 0`, raises `mCompiled` to 1 and executes no operation, so the
operation with index 0, between the old and the new `mCompiled`, is not among
the operations executed. -/
theorem abandoned_job_operations_not_executed :
    ((World.init fun _ => sampleJob 1).maps 4).mCompiled = 0 ∧
    ((compile envAbandoned (some 1) 4 (World.init fun _ => sampleJob 1) none).1.maps 4).mCompiled
      = 1 ∧
    drawsOf (compile envAbandoned (some 1) 4 (World.init fun _ => sampleJob 1) none).1.events
      = [] ∧
    drawsOf (compile envAbandoned (some 1) 4 (World.init fun _ => sampleJob 1) none).1.events ≠
      (List.range' ((World.init fun _ => sampleJob 1).maps 4).mCompiled
        (((compile envAbandoned (some 1) 4 (World.init fun _ => sampleJob 1) none).1.maps
          4).mCompiled - ((World.init fun _ => sampleJob 1).maps 4).mCompiled)).map (Prod.mk 4) :=
  ⟨by decide, by decide, by decide, by decide⟩

/-- C6. The bound `mCompiled ≤ mDrawables.size()` holds for a newly constructed
composite map and is preserved by `compile`, whatever the reference count, the
outcome of binding and the time left, by a pass that returns, and by every
sequence of producer calls and passes that runs to its end. -/
theorem progress_bound_invariant (tex : Texture2D) (drawables : List Drawable) (env : Env)
    (mFBO : Option Nat) (node : Nat) (w : World) (t : Option Int) (acts : List Action)
    (r r1 : CompositeMapRenderer) (w1 : World)
    (hB : AllBounded w) (hrun : runActions acts (r, w) = some (r1, w1)) :
    (CompositeMap.new tex drawables).Bounded ∧
    AllBounded (compile env mFBO node w t).1 ∧
    (∀ fuel r2 w2 t2, drawImplementation env fuel r w = some (r2, w2, t2) → AllBounded w2) ∧
    AllBounded w1 := by
  refine ⟨Nat.zero_le _, (compile_advances env mFBO node w t hB).allBounded,
    fun fuel r2 w2 t2 h => (pass_result env fuel r w hB r2 w2 t2 h).2.2.2.1.allBounded, ?_⟩
  obtain ⟨L, hL⟩ := runActions_advances acts r w hB r1 w1 hrun
  exact hL.allBounded

/-- C6, witness: job 0 of four operations is submitted, promoted and compiled
by a pass. -/
theorem progress_bound_invariant_witness :
    AllBounded (World.init fun _ => sampleJob 4) ∧
    ∃ r1 w1, runActions [Action.addCompositeMap 0 false, Action.setImmediate 0,
        Action.drawImplementation (envBound 1000) 1]
        (CompositeMapRenderer.new 2500 1, World.init fun _ => sampleJob 4) = some (r1, w1) ∧
      AllBounded w1 ∧ (w1.maps 0).mCompiled = 4 :=
  ⟨fun _ => Nat.zero_le _, _, _, rfl,
    (progress_bound_invariant { width := 64, height := 64 } [] (envBound 1000) (some 1) 0
      (World.init fun _ => sampleJob 4) none
      [Action.addCompositeMap 0 false, Action.setImmediate 0,
        Action.drawImplementation (envBound 1000) 1]
      (CompositeMapRenderer.new 2500 1) _ _ (fun _ => Nat.zero_le _) rfl).2.2.2,
    by decide⟩

/-- C7, at the failing input: without framebuffer objects the immediate job 7,
of one operation and referenced from outside, is in the compiled set after the
pass although its `mCompiled` is still 0. -/
theorem compiled_set_holds_incomplete_job :
    ∃ r1 w1 t1,
      drawImplementation envNoFbo 1 (addCompositeMap (CompositeMapRenderer.new 5 1) 7 true)
        (World.init fun _ => sampleJob 1) = some (r1, w1, t1) ∧
      7 ∈ r1.mCompiled ∧ (w1.maps 7).mCompiled = 0 ∧ (w1.maps 7).mDrawables.length = 1 :=
  ⟨_, _, _, rfl, by decide, by decide, by decide⟩

/-- C8. For a job referenced from outside whose render destination cannot be
bound (no framebuffer object, framebuffer objects unsupported, or the status
check not complete), `compile` returns with the heap as it was, so with
`mCompiled` unchanged, with the time left as it was and without having executed
an operation. -/
theorem bind_failure_keeps_progress (env : Env) (mFBO : Option Nat) (node : Nat) (w : World)
    (t : Option Int) (hlive : 1 < env.referenceCount node)
    (hfail : mFBO = none ∨ env.isFrameBufferObjectSupported = false ∨
      env.framebufferComplete node = false) :
    (compile env mFBO node w t).1.maps = w.maps ∧
    ((compile env mFBO node w t).1.maps node).mCompiled = (w.maps node).mCompiled ∧
    drawsOf (compile env mFBO node w t).1.events = drawsOf w.events ∧
    (compile env mFBO node w t).2 = t := by
  have hl : ¬ Abandoned env node := by unfold Abandoned; omega
  have hb : ¬ BindOk env mFBO node := by
    rintro ⟨h1, h2, h3⟩
    rcases hfail with h | h | h
    · rw [h] at h1; simp at h1
    · rw [h] at h2; simp at h2
    · rw [h] at h3; simp at h3
  obtain ⟨hm, ht, es, he, hd⟩ := compile_bind_fail env mFBO node w t hl hb
  refine ⟨hm, by rw [hm], ?_, ht⟩
  rw [he, drawsOf_append, hd, List.append_nil]

/-- C8, witness: job 7 of three operations, no framebuffer objects. -/
theorem bind_failure_keeps_progress_witness :
    1 < envNoFbo.referenceCount 7 ∧ envNoFbo.isFrameBufferObjectSupported = false ∧
    ((compile envNoFbo (some 1) 7 (World.init fun _ => sampleJob 3) (some 5)).1.maps 7).mCompiled
      = ((World.init fun _ => sampleJob 3).maps 7).mCompiled ∧
    (compile envNoFbo (some 1) 7 (World.init fun _ => sampleJob 3) (some 5)).2 = some 5 :=
  ⟨by decide, rfl,
    (bind_failure_keeps_progress envNoFbo (some 1) 7 (World.init fun _ => sampleJob 3) (some 5)
      (by decide) (Or.inr (Or.inl rfl))).2.1,
    (bind_failure_keeps_progress envNoFbo (some 1) 7 (World.init fun _ => sampleJob 3) (some 5)
      (by decide) (Or.inr (Or.inl rfl))).2.2.2⟩

/-- C9, amended. The deferred set holds only job 0, of four operations and
referenced from outside, the immediate set is empty, binding succeeds, every
operation is measured at 1000 ticks (1 ms) and the budget is 2500 ticks
(2.5 ms). After the first pass `mCompiled` of the job is 3, the job is still in
the deferred set and not in the compiled set; after the second pass `mCompiled`
is 4, the job is in the compiled set and no longer in the deferred set. -/
theorem two_pass_scenario :
    ∃ r1 w1 t1 r2 w2 t2,
      drawImplementation (envBound 1000) 1
        (addCompositeMap (CompositeMapRenderer.new 2500 1) 0 false)
        (World.init fun _ => sampleJob 4) = some (r1, w1, t1) ∧
      (w1.maps 0).mCompiled = 3 ∧ 0 ∈ r1.mCompileSet ∧ 0 ∉ r1.mCompiled ∧
      drawImplementation (envBound 1000) 1 r1 w1 = some (r2, w2, t2) ∧
      (w2.maps 0).mCompiled = 4 ∧ 0 ∈ r2.mCompiled ∧ 0 ∉ r2.mCompileSet :=
  ⟨_, _, _, _, _, _, rfl, by decide, by decide, by decide, rfl, by decide, by decide, by decide⟩

/-- C9, counterexample: in that scenario `mCompiled` of the job is 3, not 2,
after the first pass: the time left is 1500, then 500, then -500, and it is
tested after each operation. -/
theorem first_pass_runs_three_operations :
    ∃ r1 w1 t1,
      drawImplementation (envBound 1000) 1
        (addCompositeMap (CompositeMapRenderer.new 2500 1) 0 false)
        (World.init fun _ => sampleJob 4) = some (r1, w1, t1) ∧
      (w1.maps 0).mCompiled ≠ 2 ∧ t1 = some (-500) ∧
      drawsOf w1.events = [(0, 0), (0, 1), (0, 2)] :=
  ⟨_, _, _, rfl, by decide, by decide, by decide⟩

/-- C10. For a job that is in the deferred set, `setImmediate` takes the job
out of the deferred set and puts it into the immediate set; every other job is
in the sets it was in, the compiled set, the time budget and the framebuffer
object are as they were, both sets remain sets, and the world, so the progress
of every job, is untouched. -/
theorem setImmediate_moves_job (r : CompositeMapRenderer) (w : World) (j : Nat)
    (hin : j ∈ r.mCompileSet) (hset : IsSet r.mCompileSet) :
    (∀ a, a ∈ (setImmediate r j).mCompileSet ↔ a ∈ r.mCompileSet ∧ a ≠ j) ∧
    (∀ a, a ∈ (setImmediate r j).mImmediateCompileSet ↔ a ∈ r.mImmediateCompileSet ∨ a = j) ∧
    (setImmediate r j).mCompiled = r.mCompiled ∧
    (setImmediate r j).mTimeAvailable = r.mTimeAvailable ∧
    (setImmediate r j).mFBO = r.mFBO ∧
    IsSet (setImmediate r j).mCompileSet ∧
    (IsSet r.mImmediateCompileSet → IsSet (setImmediate r j).mImmediateCompileSet) ∧
    (Action.setImmediate j).apply (r, w) = some (setImmediate r j, w) := by
  have he : setImmediate r j =
      { r with mImmediateCompileSet := setInsert j r.mImmediateCompileSet,
               mCompileSet := r.mCompileSet.erase j } := by
    simp [setImmediate, hin]
  rw [he]
  refine ⟨fun a => mem_erase_of_isSet hset a j, fun a => ?_, rfl, rfl, rfl, hset.erase j,
    fun h => isSet_setInsert j _ h, ?_⟩
  · simp only [mem_setInsert]; tauto
  · simp only [Action.apply, he]

/-- C10, witness: the deferred jobs 3 and 5 and the immediate job 4; job 5 is
promoted. -/
theorem setImmediate_moves_job_witness :
    5 ∈ [3, 5] ∧ IsSet [3, 5] ∧
    (setImmediate { mTimeAvailable := 5, mCompileSet := [3, 5], mImmediateCompileSet := [4],
                    mCompiled := [], mFBO := some 1 } 5).mCompileSet = [3] ∧
    (setImmediate { mTimeAvailable := 5, mCompileSet := [3, 5], mImmediateCompileSet := [4],
                    mCompiled := [], mFBO := some 1 } 5).mImmediateCompileSet = [4, 5] ∧
    ∀ a, a ∈ (setImmediate { mTimeAvailable := 5, mCompileSet := [3, 5],
                             mImmediateCompileSet := [4], mCompiled := [], mFBO := some 1 }
                5).mCompileSet ↔ a ∈ [3, 5] ∧ a ≠ 5 :=
  ⟨by decide, by decide, by decide, by decide,
    (setImmediate_moves_job { mTimeAvailable := 5, mCompileSet := [3, 5],
                              mImmediateCompileSet := [4], mCompiled := [], mFBO := some 1 }
      (World.init fun _ => sampleJob 1) 5 (by decide) (by decide)).1⟩

/-! ## Frame properties of a pass -/

theorem IsSet.suffix {l1 l2 : List Nat} (h : IsSet (l1 ++ l2)) : IsSet l2 :=
  List.Pairwise.sublist (List.sublist_append_right l1 l2) h

theorem IsSet.append_disjoint {l1 l2 : List Nat} (h : IsSet (l1 ++ l2)) (a : Nat)
    (h1 : a ∈ l1) (h2 : a ∈ l2) : False := by
  have := (List.pairwise_append.mp h).2.2 a h1 a h2
  exact lt_irrefl a this

/-- What the second loop has done to the sets and to the jobs outside the
deferred set when it returns, whatever the progress of the jobs. -/
theorem deferredLoop_frame (env : Env) (fuel : Nat) (r : CompositeMapRenderer) (w : World)
    (t : Int) (r1 : CompositeMapRenderer) (w1 : World) (t1 : Int)
    (h : deferredLoop env fuel r w t = some (r1, w1, t1)) :
    r1.mImmediateCompileSet = r.mImmediateCompileSet ∧
    r1.mTimeAvailable = r.mTimeAvailable ∧
    r1.mFBO = r.mFBO ∧
    (∃ done, r.mCompileSet = done ++ r1.mCompileSet ∧
      ∀ a, a ∈ r1.mCompiled ↔ a ∈ r.mCompiled ∨ a ∈ done) ∧
    (∀ j, j ∉ r.mCompileSet → w1.maps j = w.maps j) ∧
    (r1.mCompileSet = [] ∨ t1 ≤ 0) := by
  induction fuel generalizing r w t with
  | zero =>
    cases hs : r.mCompileSet with
    | nil =>
      rw [deferredLoop_nil env 0 r w t hs] at h
      simp only [Option.some.injEq, Prod.mk.injEq] at h
      obtain ⟨rfl, rfl, rfl⟩ := h
      exact ⟨rfl, rfl, rfl, ⟨[], by simp [hs], by simp⟩, fun _ _ => rfl, Or.inl hs⟩
    | cons node rest =>
      by_cases ht : 0 < t
      · rw [deferredLoop_zero env r w t node rest hs ht] at h; simp at h
      · rw [deferredLoop_stop env 0 r w t (by omega)] at h
        simp only [Option.some.injEq, Prod.mk.injEq] at h
        obtain ⟨rfl, rfl, rfl⟩ := h
        exact ⟨rfl, rfl, rfl, ⟨[], by simp [hs], by simp⟩, fun _ _ => rfl, Or.inr (by omega)⟩
  | succ fuel ih =>
    cases hs : r.mCompileSet with
    | nil =>
      rw [deferredLoop_nil env _ r w t hs] at h
      simp only [Option.some.injEq, Prod.mk.injEq] at h
      obtain ⟨rfl, rfl, rfl⟩ := h
      exact ⟨rfl, rfl, rfl, ⟨[], by simp [hs], by simp⟩, fun _ _ => rfl, Or.inl hs⟩
    | cons node rest =>
      by_cases ht : 0 < t
      · rw [deferredLoop_succ env fuel r w t node rest hs ht] at h
        obtain ⟨b1, b2, b3, ⟨done, b5, b6⟩, b7, b9⟩ := ih _ _ _ h
        have hw : ∀ j, j ∉ node :: rest → w1.maps j = w.maps j := by
          intro j hj
          have hjn : j ≠ node := fun e => hj (by simp [e])
          have hjr : j ∉ rest := fun e => hj (List.mem_cons_of_mem _ e)
          have hin : j ∉ (deferredBody env node rest r w t).1.mCompileSet := by
            rcases deferredBody_renderer env node rest r w t with ⟨_, he⟩ | ⟨_, he⟩
            · rw [he]; exact hjr
            · rw [he, hs]; exact hj
          rw [b7 j hin, deferredBody_world]
          exact compile_maps_ne env r.mFBO node w (some t) j hjn
        rcases deferredBody_renderer env node rest r w t with ⟨_, he⟩ | ⟨_, he⟩
        · rw [he] at b1 b2 b3 b5 b6
          simp only [] at b1 b2 b3 b5 b6
          refine ⟨b1, b2, b3, ⟨node :: done, by rw [b5]; rfl, fun a => ?_⟩, hw, b9⟩
          rw [b6 a, mem_setInsert, List.mem_cons]; tauto
        · rw [he] at b1 b2 b3 b5 b6
          rw [hs] at b5
          exact ⟨b1, b2, b3, ⟨done, b5, b6⟩, hw, b9⟩
      · rw [deferredLoop_stop env _ r w t (by omega)] at h
        simp only [Option.some.injEq, Prod.mk.injEq] at h
        obtain ⟨rfl, rfl, rfl⟩ := h
        exact ⟨rfl, rfl, rfl, ⟨[], by simp [hs], by simp⟩, fun _ _ => rfl, Or.inr (by omega)⟩

/-- What a pass that returns has done to the sets and to the jobs outside
both sets, whatever the progress of the jobs. -/
theorem pass_frame (env : Env) (fuel : Nat) (r : CompositeMapRenderer) (w : World)
    (r1 : CompositeMapRenderer) (w1 : World) (t1 : Option Int)
    (h : drawImplementation env fuel r w = some (r1, w1, t1)) :
    r1.mImmediateCompileSet = [] ∧
    r1.mTimeAvailable = r.mTimeAvailable ∧
    r1.mFBO = r.mFBO ∧
    (∃ done, r.mCompileSet = done ++ r1.mCompileSet ∧
      ∀ a, a ∈ r1.mCompiled ↔ a ∈ r.mImmediateCompileSet ∨ a ∈ done) ∧
    (∀ j, j ∉ r.mImmediateCompileSet → j ∉ r.mCompileSet → w1.maps j = w.maps j) := by
  by_cases hemp : r.mImmediateCompileSet = [] ∧ r.mCompileSet = []
  · rw [drawImplementation_empty env fuel r w hemp.1 hemp.2] at h
    simp only [Option.some.injEq, Prod.mk.injEq] at h
    obtain ⟨rfl, rfl, rfl⟩ := h
    refine ⟨hemp.1, rfl, rfl, ⟨[], by simp [hemp.2], ?_⟩, fun _ _ _ => rfl⟩
    intro a; simp [hemp.1]
  · have hne : r.mImmediateCompileSet ≠ [] ∨ r.mCompileSet ≠ [] := by
      by_contra hc
      push_neg at hc
      exact hemp hc
    rw [drawImplementation_nonempty env fuel r w hne] at h
    obtain ⟨i1, i2, i3, i4, i5, _⟩ :=
      immediateLoop_renderer env r.mImmediateCompileSet { r with mCompiled := [] } w
    obtain ⟨f1, _⟩ := immediateLoop_frame env r.mImmediateCompileSet { r with mCompiled := [] } w
    cases hdl : deferredLoop env fuel
      (immediateLoop env r.mImmediateCompileSet { r with mCompiled := [] } w).1
      (immediateLoop env r.mImmediateCompileSet { r with mCompiled := [] } w).2
      r.mTimeAvailable with
    | none => rw [hdl] at h; simp at h
    | some x =>
      obtain ⟨r2, w2, t2⟩ := x
      rw [hdl] at h
      simp only [Option.map_some', Option.some.injEq, Prod.mk.injEq] at h
      obtain ⟨rfl, rfl, rfl⟩ := h
      obtain ⟨d1, d2, d3, ⟨done, d5, d6⟩, d7, _⟩ := deferredLoop_frame env fuel _ _ _ _ _ _ hdl
      rw [i1] at d5 d7
      refine ⟨by rw [d1]; exact i4 rfl, by rw [d2, i2], by rw [d3, i3],
        ⟨done, d5, fun a => ?_⟩, fun j hj1 hj2 => by rw [d7 j hj2, f1 j hj1]⟩
      rw [d6 a, i5 a]; simp

/-- C11. For a job that is not in the deferred set, `setImmediate` returns the
renderer as it was, with both sets, the compiled set and the budget unchanged;
the world, so the progress of every job, is untouched, and the call yields a
result rather than failing. -/
theorem setImmediate_absent_is_noop (r : CompositeMapRenderer) (w : World) (j : Nat)
    (hn : j ∉ r.mCompileSet) :
    setImmediate r j = r ∧ (Action.setImmediate j).apply (r, w) = some (r, w) := by
  have he : setImmediate r j = r := by simp [setImmediate, hn]
  exact ⟨he, by simp only [Action.apply, he]⟩

/-- C11, witness: job 4 is in the immediate set and job 8 was never submitted;
promoting either changes nothing. -/
theorem setImmediate_absent_is_noop_witness :
    4 ∉ [3, 5] ∧ 8 ∉ [3, 5] ∧
    setImmediate { mTimeAvailable := 5, mCompileSet := [3, 5], mImmediateCompileSet := [4],
                   mCompiled := [7], mFBO := some 1 } 4 =
      { mTimeAvailable := 5, mCompileSet := [3, 5], mImmediateCompileSet := [4],
        mCompiled := [7], mFBO := some 1 } ∧
    setImmediate { mTimeAvailable := 5, mCompileSet := [3, 5], mImmediateCompileSet := [4],
                   mCompiled := [7], mFBO := some 1 } 8 =
      { mTimeAvailable := 5, mCompileSet := [3, 5], mImmediateCompileSet := [4],
        mCompiled := [7], mFBO := some 1 } :=
  ⟨by decide, by decide,
    (setImmediate_absent_is_noop { mTimeAvailable := 5, mCompileSet := [3, 5],
                                   mImmediateCompileSet := [4], mCompiled := [7], mFBO := some 1 }
      (World.init fun _ => sampleJob 1) 4 (by decide)).1,
    (setImmediate_absent_is_noop { mTimeAvailable := 5, mCompileSet := [3, 5],
                                   mImmediateCompileSet := [4], mCompiled := [7], mFBO := some 1 }
      (World.init fun _ => sampleJob 1) 8 (by decide)).1⟩

/-- C12. `addCompositeMap` with `immediate = true` puts the job into the
immediate set and leaves the deferred set as it was; with `immediate = false`
it puts the job into the deferred set and leaves the immediate set as it was.
In both cases every other job is in the sets it was in, the compiled set, the
budget and the framebuffer object are as they were, a set remains a set, and the
world, so the progress of every job, is untouched. -/
theorem addCompositeMap_inserts (r : CompositeMapRenderer) (w : World) (j : Nat) :
    ((∀ a, a ∈ (addCompositeMap r j true).mImmediateCompileSet ↔
        a = j ∨ a ∈ r.mImmediateCompileSet) ∧
      (addCompositeMap r j true).mCompileSet = r.mCompileSet) ∧
    ((∀ a, a ∈ (addCompositeMap r j false).mCompileSet ↔ a = j ∨ a ∈ r.mCompileSet) ∧
      (addCompositeMap r j false).mImmediateCompileSet = r.mImmediateCompileSet) ∧
    (∀ immediate, (addCompositeMap r j immediate).mCompiled = r.mCompiled ∧
      (addCompositeMap r j immediate).mTimeAvailable = r.mTimeAvailable ∧
      (addCompositeMap r j immediate).mFBO = r.mFBO ∧
      (IsSet r.mImmediateCompileSet → IsSet (addCompositeMap r j immediate).mImmediateCompileSet) ∧
      (IsSet r.mCompileSet → IsSet (addCompositeMap r j immediate).mCompileSet) ∧
      (Action.addCompositeMap j immediate).apply (r, w) =
        some (addCompositeMap r j immediate, w)) := by
  refine ⟨⟨fun a => mem_setInsert a j _, rfl⟩, ⟨fun a => mem_setInsert a j _, rfl⟩, ?_⟩
  intro immediate
  cases immediate
  · exact ⟨rfl, rfl, rfl, fun h => h, fun h => isSet_setInsert j _ h, rfl⟩
  · exact ⟨rfl, rfl, rfl, fun h => isSet_setInsert j _ h, fun h => h, rfl⟩

/-- C13. That no job is in both the immediate and the deferred set holds for a
newly constructed renderer and, the deferred set being a set, is preserved by
`setImmediate`, by a pass that returns, whatever the budget and the outcome of
binding, and by `addCompositeMap` of a job that is in neither set; the deferred
set remains a set under each of them. -/
theorem queues_disjoint_invariant (timeAvailable : Int) (fbo : Nat) (env : Env) (fuel : Nat)
    (r : CompositeMapRenderer) (w : World) (j : Nat)
    (hdisj : QueuesDisjoint r) (hset : IsSet r.mCompileSet) :
    (QueuesDisjoint (CompositeMapRenderer.new timeAvailable fbo) ∧
      IsSet (CompositeMapRenderer.new timeAvailable fbo).mCompileSet) ∧
    (QueuesDisjoint (setImmediate r j) ∧ IsSet (setImmediate r j).mCompileSet) ∧
    (∀ r1 w1 t1, drawImplementation env fuel r w = some (r1, w1, t1) →
      QueuesDisjoint r1 ∧ IsSet r1.mCompileSet) ∧
    (∀ immediate, j ∉ r.mImmediateCompileSet → j ∉ r.mCompileSet →
      QueuesDisjoint (addCompositeMap r j immediate) ∧
      IsSet (addCompositeMap r j immediate).mCompileSet) := by
  refine ⟨⟨fun a ha => by simp [CompositeMapRenderer.new] at ha, isSet_nil⟩, ?_, ?_, ?_⟩
  · by_cases hin : j ∈ r.mCompileSet
    · have he : setImmediate r j =
          { r with mImmediateCompileSet := setInsert j r.mImmediateCompileSet,
                   mCompileSet := r.mCompileSet.erase j } := by
        simp [setImmediate, hin]
      rw [he]
      refine ⟨fun a ha hm => ?_, hset.erase j⟩
      have hm' := (mem_erase_of_isSet hset a j).mp hm
      rcases (mem_setInsert a j _).mp ha with h | h
      · exact hm'.2 h
      · exact hdisj a h hm'.1
    · have he : setImmediate r j = r := by simp [setImmediate, hin]
      rw [he]; exact ⟨hdisj, hset⟩
  · intro r1 w1 t1 h
    obtain ⟨p1, _, _, ⟨done, p5, _⟩, _⟩ := pass_frame env fuel r w r1 w1 t1 h
    refine ⟨fun a ha => by rw [p1] at ha; simp at ha, ?_⟩
    rw [p5] at hset
    exact hset.suffix
  · intro immediate h1 h2
    cases immediate
    · refine ⟨fun a ha hm => ?_, isSet_setInsert j _ hset⟩
      rcases (mem_setInsert a j _).mp hm with h | h
      · subst h; exact h1 ha
      · exact hdisj a ha h
    · refine ⟨fun a ha hm => ?_, hset⟩
      rcases (mem_setInsert a j _).mp ha with h | h
      · subst h; exact h2 hm
      · exact hdisj a h hm

/-- C13, witness: the immediate job 4 and the deferred jobs 3 and 5; job 5 is
promoted, a pass runs, job 8 is submitted. -/
theorem queues_disjoint_invariant_witness :
    QueuesDisjoint { mTimeAvailable := 5, mCompileSet := [3, 5], mImmediateCompileSet := [4],
                     mCompiled := [], mFBO := some 1 } ∧
    IsSet [3, 5] ∧
    QueuesDisjoint (setImmediate { mTimeAvailable := 5, mCompileSet := [3, 5],
                                   mImmediateCompileSet := [4], mCompiled := [],
                                   mFBO := some 1 } 5) ∧
    QueuesDisjoint (addCompositeMap { mTimeAvailable := 5, mCompileSet := [3, 5],
                                      mImmediateCompileSet := [4], mCompiled := [],
                                      mFBO := some 1 } 8 true) :=
  ⟨by decide, by decide,
    (queues_disjoint_invariant 5 1 (envBound 1) 3
      { mTimeAvailable := 5, mCompileSet := [3, 5], mImmediateCompileSet := [4],
        mCompiled := [], mFBO := some 1 }
      (World.init fun _ => sampleJob 2) 5 (by decide) (by decide)).2.1.1,
    ((queues_disjoint_invariant 5 1 (envBound 1) 3
      { mTimeAvailable := 5, mCompileSet := [3, 5], mImmediateCompileSet := [4],
        mCompiled := [], mFBO := some 1 }
      (World.init fun _ => sampleJob 2) 8 (by decide) (by decide)).2.2.2 true
      (by decide) (by decide)).1⟩

/-- C14. When both sets are empty a pass returns, whatever the budget and the
fuel, with the compiled set empty, both sets, the budget and the framebuffer
object as they were and the world untouched: the log, so the calls that bind a
render destination, and the progress of every job are as before. A second pass
returns the same state. -/
theorem empty_pass_clears_compiled (env : Env) (fuel : Nat) (r : CompositeMapRenderer)
    (w : World) (hi : r.mImmediateCompileSet = []) (hd : r.mCompileSet = []) :
    drawImplementation env fuel r w =
      some ({ mTimeAvailable := r.mTimeAvailable, mCompileSet := [], mImmediateCompileSet := [],
              mCompiled := [], mFBO := r.mFBO }, w, none) ∧
    drawImplementation env fuel
      { mTimeAvailable := r.mTimeAvailable, mCompileSet := [], mImmediateCompileSet := [],
        mCompiled := [], mFBO := r.mFBO } w =
      some ({ mTimeAvailable := r.mTimeAvailable, mCompileSet := [], mImmediateCompileSet := [],
              mCompiled := [], mFBO := r.mFBO }, w, none) := by
  refine ⟨?_, drawImplementation_empty env fuel _ w rfl rfl⟩
  rw [drawImplementation_empty env fuel r w hi hd, hi, hd]

/-- C14, witness: a renderer with empty sets whose compiled set holds job 7
from the pass before. -/
theorem empty_pass_clears_compiled_witness :
    ∃ r1 w1 t1,
      drawImplementation (envBound 1) 0
        { mTimeAvailable := 5, mCompileSet := [], mImmediateCompileSet := [], mCompiled := [7],
          mFBO := some 1 } (World.init fun _ => sampleJob 2) = some (r1, w1, t1) ∧
      r1.mCompiled = [] ∧ w1.events = [] ∧ (w1.maps 7).mCompiled = 0 :=
  ⟨_, _, _,
    (empty_pass_clears_compiled (envBound 1) 0
      { mTimeAvailable := 5, mCompileSet := [], mImmediateCompileSet := [], mCompiled := [7],
        mFBO := some 1 } (World.init fun _ => sampleJob 2) rfl rfl).1,
    rfl, rfl, rfl⟩

/-! ## The framebuffer bindings -/

/-- What `compile` does to the framebuffer bindings: when it binds the target of
the job, the default framebuffer of the graphics context is bound for reading
and drawing on return; otherwise the bindings are as they were. -/
theorem compile_fbo (env : Env) (mFBO : Option Nat) (node : Nat) (w : World) (t : Option Int) :
    (Abandoned env node ∨ mFBO = none ∨ env.isFrameBufferObjectSupported = false →
      (compile env mFBO node w t).1.drawFbo = w.drawFbo ∧
      (compile env mFBO node w t).1.readFbo = w.readFbo) ∧
    (¬ Abandoned env node → mFBO.isSome = true → env.isFrameBufferObjectSupported = true →
      (compile env mFBO node w t).1.drawFbo = defaultFboId env ∧
      (compile env mFBO node w t).1.readFbo = defaultFboId env) := by
  constructor
  · intro h
    by_cases ha : Abandoned env node
    · rw [compile_abandoned env mFBO node w t ha]; exact ⟨rfl, rfl⟩
    · have hl : ¬ env.referenceCount node ≤ 1 := ha
      rcases h with h | h | h
      · exact absurd h ha
      · subst h
        have hc : compile env none node w t = (w, t) := by simp [compile, hl]
        rw [hc]; exact ⟨rfl, rfl⟩
      · cases mFBO with
        | none =>
          have hc : compile env none node w t = (w, t) := by simp [compile, hl]
          rw [hc]; exact ⟨rfl, rfl⟩
        | some fbo =>
          have hc : compile env (some fbo) node w t = (w, t) := by simp [compile, hl, h]
          rw [hc]; exact ⟨rfl, rfl⟩
  · intro ha hf hs
    have hl : ¬ env.referenceCount node ≤ 1 := ha
    obtain ⟨fbo, rfl⟩ := Option.isSome_iff_exists.mp hf
    cases hc : env.framebufferComplete node with
    | false =>
      simp only [compile, hl, hs, hc, if_false, Bool.not_true, Bool.not_false, if_true]
      exact ⟨rfl, rfl⟩
    | true =>
      simp only [compile, hl, hs, hc, if_false, Bool.not_true]
      exact ⟨rfl, rfl⟩

/-- A property of the world that every call of `compile` preserves holds after
the first loop. -/
theorem immediateLoop_preserves (env : Env) (P : World → Prop)
    (hP : ∀ mFBO node w t, P w → P (compile env mFBO node w t).1)
    (l : List Nat) (r : CompositeMapRenderer) (w : World) (h : P w) :
    P (immediateLoop env l r w).2 := by
  induction l generalizing r w with
  | nil => exact h
  | cons node rest ih =>
    simp only [immediateLoop]
    exact ih _ _ (hP r.mFBO node w none h)

/-- A property of the world that every call of `compile` preserves holds after
the second loop. -/
theorem deferredLoop_preserves (env : Env) (P : World → Prop)
    (hP : ∀ mFBO node w t, P w → P (compile env mFBO node w t).1)
    (fuel : Nat) (r : CompositeMapRenderer) (w : World) (t : Int) (h : P w)
    (r1 : CompositeMapRenderer) (w1 : World) (t1 : Int)
    (hrun : deferredLoop env fuel r w t = some (r1, w1, t1)) : P w1 := by
  induction fuel generalizing r w t with
  | zero =>
    cases hs : r.mCompileSet with
    | nil =>
      rw [deferredLoop_nil env 0 r w t hs] at hrun
      simp only [Option.some.injEq, Prod.mk.injEq] at hrun
      obtain ⟨_, rfl, _⟩ := hrun
      exact h
    | cons node rest =>
      by_cases ht : 0 < t
      · rw [deferredLoop_zero env r w t node rest hs ht] at hrun; simp at hrun
      · rw [deferredLoop_stop env 0 r w t (by omega)] at hrun
        simp only [Option.some.injEq, Prod.mk.injEq] at hrun
        obtain ⟨_, rfl, _⟩ := hrun
        exact h
  | succ fuel ih =>
    cases hs : r.mCompileSet with
    | nil =>
      rw [deferredLoop_nil env _ r w t hs] at hrun
      simp only [Option.some.injEq, Prod.mk.injEq] at hrun
      obtain ⟨_, rfl, _⟩ := hrun
      exact h
    | cons node rest =>
      by_cases ht : 0 < t
      · rw [deferredLoop_succ env fuel r w t node rest hs ht] at hrun
        refine ih _ _ _ ?_ hrun
        rw [deferredBody_world]
        exact hP r.mFBO node w (some t) h
      · rw [deferredLoop_stop env _ r w t (by omega)] at hrun
        simp only [Option.some.injEq, Prod.mk.injEq] at hrun
        obtain ⟨_, rfl, _⟩ := hrun
        exact h

/-- A property of the world that every call of `compile` preserves holds after
a pass that returns. -/
theorem pass_preserves (env : Env) (P : World → Prop)
    (hP : ∀ mFBO node w t, P w → P (compile env mFBO node w t).1)
    (fuel : Nat) (r : CompositeMapRenderer) (w : World) (h : P w)
    (r1 : CompositeMapRenderer) (w1 : World) (t1 : Option Int)
    (hrun : drawImplementation env fuel r w = some (r1, w1, t1)) : P w1 := by
  by_cases hemp : r.mImmediateCompileSet = [] ∧ r.mCompileSet = []
  · rw [drawImplementation_empty env fuel r w hemp.1 hemp.2] at hrun
    simp only [Option.some.injEq, Prod.mk.injEq] at hrun
    obtain ⟨_, rfl, _⟩ := hrun
    exact h
  · have hne : r.mImmediateCompileSet ≠ [] ∨ r.mCompileSet ≠ [] := by
      by_contra hc
      push_neg at hc
      exact hemp hc
    rw [drawImplementation_nonempty env fuel r w hne] at hrun
    cases hdl : deferredLoop env fuel
      (immediateLoop env r.mImmediateCompileSet { r with mCompiled := [] } w).1
      (immediateLoop env r.mImmediateCompileSet { r with mCompiled := [] } w).2
      r.mTimeAvailable with
    | none => rw [hdl] at hrun; simp at hrun
    | some x =>
      obtain ⟨r2, w2, t2⟩ := x
      rw [hdl] at hrun
      simp only [Option.map_some', Option.some.injEq, Prod.mk.injEq] at hrun
      obtain ⟨_, rfl, _⟩ := hrun
      exact deferredLoop_preserves env P hP fuel _ _ _
        (immediateLoop_preserves env P hP _ _ w h) _ _ _ hdl

/-- After `compile` each framebuffer binding is as before or is the default
framebuffer. -/
theorem compile_fbo_cases (env : Env) (mFBO : Option Nat) (node : Nat) (w : World)
    (t : Option Int) :
    ((compile env mFBO node w t).1.drawFbo = w.drawFbo ∧
      (compile env mFBO node w t).1.readFbo = w.readFbo) ∨
    ((compile env mFBO node w t).1.drawFbo = defaultFboId env ∧
      (compile env mFBO node w t).1.readFbo = defaultFboId env) := by
  obtain ⟨h1, h2⟩ := compile_fbo env mFBO node w t
  by_cases ha : Abandoned env node
  · exact Or.inl (h1 (Or.inl ha))
  · cases hf : mFBO with
    | none => exact Or.inl (hf ▸ h1 (Or.inr (Or.inl hf)))
    | some fbo =>
      cases hs : env.isFrameBufferObjectSupported with
      | false => exact Or.inl (hf ▸ h1 (Or.inr (Or.inr hs)))
      | true => exact Or.inr (hf ▸ h2 ha (by rw [hf]; rfl) hs)

/-! ## The budget inside `compile` -/

/-- The `for` loop of `compile` under a budget: it executes at least one
operation, the time left on return is the budget less what the executed
operations cost, the budget was positive before every executed operation, and
when operations remain the budget is used up. -/
theorem opsRun_spec (env : Env) (node : Nat) (n i : Nat) (t : Int) (hn : 0 < n) :
    1 ≤ opsRun env node n i (some t) ∧
    opsRun env node n i (some t) ≤ n ∧
    timeAfter env node n i (some t) =
      some (t - spent env node i (opsRun env node n i (some t))) ∧
    (∀ m, 0 < m → m < opsRun env node n i (some t) → 0 < t - spent env node i m) ∧
    (opsRun env node n i (some t) < n →
      t - spent env node i (opsRun env node n i (some t)) ≤ 0) := by
  induction n generalizing i t with
  | zero => omega
  | succ n ih =>
    simp only [opsRun, timeAfter]
    by_cases hle : t - env.time_s node i ≤ 0
    · simp only [hle, if_true]
      refine ⟨le_refl _, by omega, by simp [spent], fun m h1 h2 => by omega, fun _ => ?_⟩
      simpa [spent] using hle
    · simp only [hle, if_false]
      cases n with
      | zero =>
        simp only [opsRun, timeAfter]
        refine ⟨le_refl _, le_refl _, by simp [spent], fun m h1 h2 => by omega,
          fun h => by omega⟩
      | succ n =>
        obtain ⟨a1, a2, a3, a4, a5⟩ := ih (i + 1) (t - env.time_s node i) (by omega)
        refine ⟨by omega, by omega, ?_, fun m h1 h2 => ?_, fun h => ?_⟩
        · rw [a3]; simp only [spent]; congr 1; ring
        · cases m with
          | zero => omega
          | succ m =>
            cases m with
            | zero => simp only [spent]; omega
            | succ m =>
              have := a4 (m + 1) (by omega) (by omega)
              simp only [spent] at this ⊢
              omega
        · have := a5 (by omega)
          simp only [spent] at this ⊢
          omega

/-- C12, witness: job 4 is submitted as immediate and job 6 as deferred to a
renderer that holds the deferred jobs 3 and 5. -/
theorem addCompositeMap_inserts_witness :
    IsSet [3, 5] ∧
    (addCompositeMap { mTimeAvailable := 5, mCompileSet := [3, 5], mImmediateCompileSet := [],
                       mCompiled := [], mFBO := some 1 } 4 true).mImmediateCompileSet = [4] ∧
    (addCompositeMap { mTimeAvailable := 5, mCompileSet := [3, 5], mImmediateCompileSet := [],
                       mCompiled := [], mFBO := some 1 } 6 false).mCompileSet = [3, 5, 6] ∧
    IsSet (addCompositeMap { mTimeAvailable := 5, mCompileSet := [3, 5],
                             mImmediateCompileSet := [], mCompiled := [],
                             mFBO := some 1 } 6 false).mCompileSet :=
  ⟨by decide, by decide, by decide,
    ((addCompositeMap_inserts { mTimeAvailable := 5, mCompileSet := [3, 5],
                                mImmediateCompileSet := [], mCompiled := [], mFBO := some 1 }
      (World.init fun _ => sampleJob 1) 6).2.2 false).2.2.2.2.1 (by decide)⟩

/-- C15, amended. A call of `compile` that binds the target of the job (the job
is referenced from outside, there is a framebuffer object and framebuffer
objects are supported) returns with the default framebuffer of the graphics
context, id 0 without a graphics context, bound for drawing and for reading,
whether the status check failed, the budget ran out or the loop completed; so
the framebuffer bound on return is the one bound before the call when that was
the default framebuffer. After a pass that returns, the framebuffer bound for
drawing is the one bound before the pass or the default framebuffer, hence the
one bound before the pass when that was the default framebuffer. -/
theorem compile_rebinds_default_framebuffer (env : Env) (mFBO : Option Nat) (node : Nat)
    (w : World) (t : Option Int) (fuel : Nat) (r : CompositeMapRenderer)
    (hlive : 1 < env.referenceCount node) (hfbo : mFBO.isSome = true)
    (hsup : env.isFrameBufferObjectSupported = true) :
    ((compile env mFBO node w t).1.drawFbo = defaultFboId env ∧
      (compile env mFBO node w t).1.readFbo = defaultFboId env) ∧
    (w.drawFbo = defaultFboId env → (compile env mFBO node w t).1.drawFbo = w.drawFbo) ∧
    (∀ r1 w1 t1, drawImplementation env fuel r w = some (r1, w1, t1) →
      (w1.drawFbo = w.drawFbo ∨ w1.drawFbo = defaultFboId env) ∧
      (w.drawFbo = defaultFboId env → w1.drawFbo = w.drawFbo)) := by
  have ha : ¬ Abandoned env node := by unfold Abandoned; omega
  have hc := (compile_fbo env mFBO node w t).2 ha hfbo hsup
  refine ⟨hc, fun h => by rw [hc.1, h], fun r1 w1 t1 hrun => ?_⟩
  have hp : w1.drawFbo = w.drawFbo ∨ w1.drawFbo = defaultFboId env :=
    pass_preserves env (fun x => x.drawFbo = w.drawFbo ∨ x.drawFbo = defaultFboId env)
      (fun mFBO' node' x t' hx => by
        rcases compile_fbo_cases env mFBO' node' x t' with ⟨h1, _⟩ | ⟨h1, _⟩
        · rw [h1]; exact hx
        · exact Or.inr h1)
      fuel r w (Or.inl rfl) r1 w1 t1 hrun
  exact ⟨hp, fun h => by rcases hp with h1 | h1 <;> [exact h1; rw [h1, h]]⟩

/-- C15, witness: job 0 of two operations is compiled while the default
framebuffer 0 is bound. -/
theorem compile_rebinds_default_framebuffer_witness :
    1 < (envBound 1).referenceCount 0 ∧
    (compile (envBound 1) (some 1) 0 (World.init fun _ => sampleJob 2) none).1.drawFbo =
      (World.init fun _ => sampleJob 2).drawFbo :=
  ⟨by decide,
    (compile_rebinds_default_framebuffer (envBound 1) (some 1) 0
      (World.init fun _ => sampleJob 2) none 0 (CompositeMapRenderer.new 5 1)
      (by decide) rfl rfl).2.1 rfl⟩

/-- C15, counterexample: framebuffer 9 is bound for drawing when `compile` is
called on job 0, of two operations; on return framebuffer 0, the default one of
the graphics context, is bound. -/
theorem compile_leaves_default_framebuffer_bound :
    ({ maps := fun _ => sampleJob 2, drawFbo := 9, readFbo := 9, stateSetStack := [],
       events := [] } : World).drawFbo = 9 ∧
    (compile (envBound 1) (some 1) 0
      { maps := fun _ => sampleJob 2, drawFbo := 9, readFbo := 9, stateSetStack := [],
        events := [] } none).1.drawFbo = 0 ∧
    (compile (envBound 1) (some 1) 0
      { maps := fun _ => sampleJob 2, drawFbo := 9, readFbo := 9, stateSetStack := [],
        events := [] } none).1.drawFbo ≠
      ({ maps := fun _ => sampleJob 2, drawFbo := 9, readFbo := 9, stateSetStack := [],
         events := [] } : World).drawFbo :=
  ⟨rfl, by decide, by decide⟩

/-- C16. `getCompileSetSize` returns the number of jobs in the deferred set: the
length of the list that represents the set, which is the number of distinct
jobs in it; the result does not depend on the immediate set or on the compiled
set, and it does not depend on the world, so not on the progress of the jobs.
The function returns a number only. -/
theorem getCompileSetSize_counts_deferred (r : CompositeMapRenderer) (immediate compiled : List Nat)
    (hset : IsSet r.mCompileSet) :
    getCompileSetSize r = r.mCompileSet.length ∧
    getCompileSetSize r = r.mCompileSet.toFinset.card ∧
    getCompileSetSize { r with mImmediateCompileSet := immediate, mCompiled := compiled } =
      getCompileSetSize r := by
  refine ⟨rfl, ?_, rfl⟩
  rw [List.toFinset_card_of_nodup hset.nodup]
  rfl

/-- C16, witness: two deferred jobs, one immediate job and one compiled job
give 2. -/
theorem getCompileSetSize_counts_deferred_witness :
    IsSet [3, 5] ∧
    getCompileSetSize { mTimeAvailable := 5, mCompileSet := [3, 5], mImmediateCompileSet := [4],
                        mCompiled := [7], mFBO := some 1 } = 2 ∧
    getCompileSetSize { mTimeAvailable := 5, mCompileSet := [3, 5], mImmediateCompileSet := [4],
                        mCompiled := [7], mFBO := some 1 } =
      ([3, 5] : List Nat).toFinset.card :=
  ⟨by decide, by decide,
    (getCompileSetSize_counts_deferred { mTimeAvailable := 5, mCompileSet := [3, 5],
                                         mImmediateCompileSet := [4], mCompiled := [7],
                                         mFBO := some 1 } [] [] (by decide)).2.1⟩

/-- C18, at the failing input: the deferred job 3, of one operation and
referenced from outside, fails the framebuffer status check. After a round of
the second loop the job is incomplete and still the first of the deferred set,
the time left is still 5, so the loop goes round again with one more call of
`compile` on the job: after two rounds the log holds two attempts to bind its
target. -/
theorem incomplete_job_compiled_again :
    (deferredBody envIncomplete 3 [] (addCompositeMap (CompositeMapRenderer.new 5 1) 3 false)
      (World.init fun _ => sampleJob 1) 5).1.mCompileSet = [3] ∧
    ((deferredBody envIncomplete 3 [] (addCompositeMap (CompositeMapRenderer.new 5 1) 3 false)
      (World.init fun _ => sampleJob 1) 5).2.1.maps 3).mCompiled = 0 ∧
    ((deferredBody envIncomplete 3 [] (addCompositeMap (CompositeMapRenderer.new 5 1) 3 false)
      (World.init fun _ => sampleJob 1) 5).2.1.maps 3).mDrawables.length = 1 ∧
    (deferredBody envIncomplete 3 [] (addCompositeMap (CompositeMapRenderer.new 5 1) 3 false)
      (World.init fun _ => sampleJob 1) 5).2.2 = 5 ∧
    (∀ fuel, deferredLoop envIncomplete (fuel + 1)
        (addCompositeMap (CompositeMapRenderer.new 5 1) 3 false)
        (World.init fun _ => sampleJob 1) 5 =
      deferredLoop envIncomplete fuel (addCompositeMap (CompositeMapRenderer.new 5 1) 3 false)
        (deferredBody envIncomplete 3 [] (addCompositeMap (CompositeMapRenderer.new 5 1) 3 false)
          (World.init fun _ => sampleJob 1) 5).2.1 5) ∧
    bindsOf (deferredBody envIncomplete 3 []
      (addCompositeMap (CompositeMapRenderer.new 5 1) 3 false)
      (deferredBody envIncomplete 3 [] (addCompositeMap (CompositeMapRenderer.new 5 1) 3 false)
        (World.init fun _ => sampleJob 1) 5).2.1 5).2.1.events = [3, 3] :=
  ⟨by decide, by decide, by decide, by decide,
    fun fuel => deferredLoop_succ envIncomplete fuel _ _ 5 3 [] rfl (by decide), by decide⟩

/-- C20. With disjoint queues, the deferred set being a set, after a pass that
returns: every job that was in the immediate or in the deferred set is in the
deferred set or in the compiled set and not in both; every job that was in
neither set is as it was, so its progress is unchanged, and is in neither set
and not in the compiled set; the immediate set is empty. -/
theorem pass_keeps_queued_jobs (env : Env) (fuel : Nat) (r : CompositeMapRenderer) (w : World)
    (r1 : CompositeMapRenderer) (w1 : World) (t1 : Option Int)
    (hdisj : QueuesDisjoint r) (hset : IsSet r.mCompileSet)
    (hrun : drawImplementation env fuel r w = some (r1, w1, t1)) :
    (∀ j, j ∈ r.mImmediateCompileSet ∨ j ∈ r.mCompileSet →
      (j ∈ r1.mCompileSet ∨ j ∈ r1.mCompiled) ∧ ¬ (j ∈ r1.mCompileSet ∧ j ∈ r1.mCompiled)) ∧
    (∀ j, j ∉ r.mImmediateCompileSet → j ∉ r.mCompileSet →
      w1.maps j = w.maps j ∧ j ∉ r1.mImmediateCompileSet ∧ j ∉ r1.mCompileSet ∧
      j ∉ r1.mCompiled) ∧
    r1.mImmediateCompileSet = [] := by
  obtain ⟨p1, _, _, ⟨done, p5, p6⟩, p7⟩ := pass_frame env fuel r w r1 w1 t1 hrun
  have hsub : ∀ j, j ∈ r1.mCompileSet → j ∈ r.mCompileSet := fun j hj => by
    rw [p5]; exact List.mem_append_right _ hj
  have hdone : ∀ j, j ∈ done → j ∈ r.mCompileSet := fun j hj => by
    rw [p5]; exact List.mem_append_left _ hj
  rw [p5] at hset
  refine ⟨fun j hj => ?_, fun j h1 h2 => ?_, p1⟩
  · rcases hj with hj | hj
    · exact ⟨Or.inr ((p6 j).mpr (Or.inl hj)), fun hb => hdisj j hj (hsub j hb.1)⟩
    · refine ⟨?_, fun hb => ?_⟩
      · rw [p5] at hj
        rcases List.mem_append.mp hj with h | h
        · exact Or.inr ((p6 j).mpr (Or.inr h))
        · exact Or.inl h
      · rcases (p6 j).mp hb.2 with h | h
        · exact hdisj j h hj
        · exact hset.append_disjoint j h hb.1
  · refine ⟨p7 j h1 h2, by rw [p1]; simp, fun h => h2 (hsub j h), fun h => ?_⟩
    rcases (p6 j).mp h with h | h
    · exact h1 h
    · exact h2 (hdone j h)

/-- C20, witness: the immediate job 4 and the deferred jobs 3 and 5, of two
operations each, under a budget that ends the pass inside job 3; job 8 is in
neither set. -/
theorem pass_keeps_queued_jobs_witness :
    QueuesDisjoint { mTimeAvailable := 1, mCompileSet := [3, 5], mImmediateCompileSet := [4],
                     mCompiled := [], mFBO := some 1 } ∧
    IsSet [3, 5] ∧
    ∃ r1 w1 t1,
      drawImplementation (envBound 1) 2
        { mTimeAvailable := 1, mCompileSet := [3, 5], mImmediateCompileSet := [4],
          mCompiled := [], mFBO := some 1 } (World.init fun _ => sampleJob 2)
        = some (r1, w1, t1) ∧
      r1.mCompileSet = [3, 5] ∧ r1.mCompiled = [4] ∧ (w1.maps 3).mCompiled = 1 ∧
      (w1.maps 8 = (World.init fun _ => sampleJob 2).maps 8 ∧ 8 ∉ r1.mImmediateCompileSet ∧
        8 ∉ r1.mCompileSet ∧ 8 ∉ r1.mCompiled) :=
  ⟨by decide, by decide, _, _, _, rfl, by decide, by decide, by decide,
    (pass_keeps_queued_jobs (envBound 1) 2
      { mTimeAvailable := 1, mCompileSet := [3, 5], mImmediateCompileSet := [4],
        mCompiled := [], mFBO := some 1 } (World.init fun _ => sampleJob 2) _ _ _
      (by decide) (by decide) rfl).2.1 8 (by decide) (by decide)⟩

/-! ## The budget inside `compile`, in `double` arithmetic -/

/-- With the exact subtraction the loop is `drawLoop`. -/
theorem drawLoopWith_exact (env : Env) (node : Nat) (ds : List Drawable) (i : Nat) (w : World)
    (t : Option Int) :
    drawLoopWith (fun a b => a - b) env node ds i w t = drawLoop env node ds i w t := by
  induction ds generalizing i w t with
  | nil => rfl
  | cons drw rest ih =>
    cases t with
    | none => simp only [drawLoopWith, drawLoop]; exact ih _ _ _
    | some t0 =>
      simp only [drawLoopWith, drawLoop]
      split
      · rfl
      · exact ih _ _ _

/-- With the exact subtraction `compileWith` is `compile`. -/
theorem compileWith_exact (env : Env) (mFBO : Option Nat) (node : Nat) (w : World)
    (t : Option Int) :
    compileWith (fun a b => a - b) env mFBO node w t = compile env mFBO node w t := by
  unfold compileWith compile
  simp only [drawLoopWith_exact]

/-- With the exact subtraction the time left is the budget less the sum of what
the timer reported. -/
theorem timeLeftAfter_exact (env : Env) (node : Nat) (i k : Nat) (t : Int) :
    timeLeftAfter (fun a b => a - b) env node i k t = t - spent env node i k := by
  induction k generalizing i t with
  | zero => simp [timeLeftAfter, spent]
  | succ k ih =>
    simp only [timeLeftAfter, spent]
    rw [ih]
    ring

/-- The `for` loop of `compile` under a budget, whatever the subtraction: it
executes at least one operation, namely the next `k` ones; the time left on
return is what is left after them; the time left was positive before every
executed operation after the first; and when operations remain the time left is
used up. -/
theorem drawLoopWith_budget (sub : Int → Int → Int) (env : Env) (node : Nat)
    (ds : List Drawable) (i : Nat) (w : World) (tl : Int) (hds : 0 < ds.length) :
    ∃ k, 1 ≤ k ∧ k ≤ ds.length ∧
      ((drawLoopWith sub env node ds i w (some tl)).1.maps node).mCompiled =
        (w.maps node).mCompiled + k ∧
      ((drawLoopWith sub env node ds i w (some tl)).1.maps node).mDrawables =
        (w.maps node).mDrawables ∧
      (∃ es, (drawLoopWith sub env node ds i w (some tl)).1.events = w.events ++ es ∧
        drawsOf es = (List.range' i k).map (Prod.mk node)) ∧
      (drawLoopWith sub env node ds i w (some tl)).2 = some (timeLeftAfter sub env node i k tl) ∧
      (∀ m, 0 < m → m < k → 0 < timeLeftAfter sub env node i m tl) ∧
      (k < ds.length → timeLeftAfter sub env node i k tl ≤ 0) := by
  induction ds generalizing i w tl with
  | nil => simp at hds
  | cons drw rest ih =>
    have hself := drawOne_maps_self node drw i w
    obtain ⟨es1, he1, hdr1, _⟩ := drawOne_events node drw i w
    have one : ((drawOne node drw i w).maps node).mCompiled = (w.maps node).mCompiled + 1 ∧
        ((drawOne node drw i w).maps node).mDrawables = (w.maps node).mDrawables := by
      rw [hself]; exact ⟨rfl, rfl⟩
    simp only [drawLoopWith]
    by_cases hle : sub tl (env.time_s node i) ≤ 0
    · simp only [hle, if_true]
      refine ⟨1, le_refl _, by simp, one.1, one.2, ⟨es1, he1, by simpa using hdr1⟩, rfl,
        fun m h1 h2 => by omega, fun _ => hle⟩
    · simp only [hle, if_false]
      cases rest with
      | nil =>
        simp only [drawLoopWith]
        refine ⟨1, le_refl _, by simp, one.1, one.2, ⟨es1, he1, by simpa using hdr1⟩, rfl,
          fun m h1 h2 => by omega, fun h => by simp at h⟩
      | cons d2 rest2 =>
        obtain ⟨k, k1, k2, a1, a2, ⟨es2, he2, hdr2⟩, a4, a5, a6⟩ :=
          ih (i + 1) (drawOne node drw i w) (sub tl (env.time_s node i)) (by simp)
        refine ⟨k + 1, by omega, by simp only [List.length_cons] at k2 ⊢; omega,
          by rw [a1, one.1]; omega, by rw [a2, one.2],
          ⟨es1 ++ es2, by rw [he2, he1, List.append_assoc], ?_⟩, a4, fun m h1 h2 => ?_,
          fun h => a6 (by simp only [List.length_cons] at h ⊢; omega)⟩
        · rw [drawsOf_append, hdr1, hdr2, List.range'_succ]; rfl
        · cases m with
          | zero => omega
          | succ m =>
            cases m with
            | zero => simp only [timeLeftAfter]; omega
            | succ m => exact a5 (m + 1) (by omega) (by omega)

/-- A live job whose render destination is bound, under a budget: `compileWith`
runs the loop from `mCompiled` on. -/
theorem compileWith_budget (sub : Int → Int → Int) (env : Env) (mFBO : Option Nat) (node : Nat)
    (w : World) (tl : Int) (hl : ¬ Abandoned env node) (hb : BindOk env mFBO node)
    (hp : (w.maps node).mCompiled < (w.maps node).mDrawables.length) :
    ∃ k, 1 ≤ k ∧ (w.maps node).mCompiled + k ≤ (w.maps node).mDrawables.length ∧
      ((compileWith sub env mFBO node w (some tl)).1.maps node).mCompiled =
        (w.maps node).mCompiled + k ∧
      (∃ es, (compileWith sub env mFBO node w (some tl)).1.events = w.events ++ es ∧
        drawsOf es = (List.range' (w.maps node).mCompiled k).map (Prod.mk node)) ∧
      (compileWith sub env mFBO node w (some tl)).2 =
        some (timeLeftAfter sub env node (w.maps node).mCompiled k tl) ∧
      (∀ m, 0 < m → m < k → 0 < timeLeftAfter sub env node (w.maps node).mCompiled m tl) ∧
      ((w.maps node).mCompiled + k < (w.maps node).mDrawables.length →
        timeLeftAfter sub env node (w.maps node).mCompiled k tl ≤ 0) := by
  unfold Abandoned at hl
  obtain ⟨h1, h2, h3⟩ := hb
  obtain ⟨fbo, rfl⟩ := Option.isSome_iff_exists.mp h1
  simp only [compileWith, hl, h2, h3, if_false, Bool.not_true]
  obtain ⟨k, k1, k2, a1, _, ⟨es, he, hdr⟩, a4, a5, a6⟩ :=
    drawLoopWith_budget sub env node ((w.maps node).mDrawables.drop (w.maps node).mCompiled)
      (w.maps node).mCompiled
      (World.log { w with drawFbo := fbo, events := w.events ++ [GLEvent.attachAndApply node] }
        [GLEvent.checkFramebufferStatus]) tl (by rw [List.length_drop]; omega)
  rw [List.length_drop] at k2 a6
  refine ⟨k, k1, by omega, a1, ?_, a4, a5, fun h => a6 (by omega)⟩
  refine ⟨[GLEvent.attachAndApply node, GLEvent.checkFramebufferStatus] ++ es ++
    [GLEvent.haveAppliedViewport, GLEvent.bindFramebuffer (defaultFboId env)], ?_, ?_⟩
  · simp only [World.log, World.bindFramebuffer] at he ⊢
    rw [he]; simp
  · rw [drawsOf_append, drawsOf_append, hdr]; simp [drawsOf]

/-- When no difference is rounded, the time left in `double` arithmetic is the
budget less the sum of what the timer reported. -/
theorem timeLeftAfter_subDouble_exact (env : Env) (node : Nat) (i k : Nat) (t : Int)
    (h : ∀ m, 0 < m → m ≤ k → roundDouble (t - spent env node i m) = t - spent env node i m) :
    timeLeftAfter subDouble env node i k t = t - spent env node i k := by
  induction k generalizing i t with
  | zero => simp [timeLeftAfter, spent]
  | succ k ih =>
    have h1 : subDouble t (env.time_s node i) = t - env.time_s node i := by
      have := h 1 (by omega) (by omega)
      simpa [subDouble, spent] using this
    simp only [timeLeftAfter, spent]
    rw [h1, ih]
    · ring
    · intro m hm1 hm2
      have := h (m + 1) (by omega) (by omega)
      simp only [spent] at this
      have e : t - env.time_s node i - spent env node (i + 1) m =
          t - (env.time_s node i + spent env node (i + 1) m) := by ring
      rw [e]; exact this

/-- C19, amended. For a job referenced from outside whose render destination is
bound, with `mCompiled = p` below `mDrawables.size()` and a budget `tl > 0`,
whatever the timer reports, with the time left computed as the code computes
it, by subtracting what the timer reported operation by operation in `double`
arithmetic, every difference rounded: `compile` ends with `mCompiled = q` where
`p < q`, so at least one operation is executed; the operations executed are
those with the indices from `p` up to, and excluding, `q`; the time left on
return is the time left after them; every executed operation started while the
time left was positive; when operations remain the time left is `≤ 0`. So `q`
is the least index above `p` at which the time left is `≤ 0` when there is one
up to `mDrawables.size()`, and `mDrawables.size()` when there is none. When no
difference is rounded, the time left on return is `tl` less the sum of what the
timer reported for the executed operations. -/
theorem compile_budget_cutoff_rounded (env : Env) (mFBO : Option Nat) (node : Nat) (w : World)
    (tl : Int) (hlive : 1 < env.referenceCount node) (hbind : BindOk env mFBO node)
    (hp : (w.maps node).mCompiled < (w.maps node).mDrawables.length) (ht : 0 < tl) :
    (w.maps node).mCompiled <
      ((compileWith subDouble env mFBO node w (some tl)).1.maps node).mCompiled ∧
    ((compileWith subDouble env mFBO node w (some tl)).1.maps node).mCompiled ≤
      (w.maps node).mDrawables.length ∧
    (∃ es, (compileWith subDouble env mFBO node w (some tl)).1.events = w.events ++ es ∧
      drawsOf es = (List.range' (w.maps node).mCompiled
        (((compileWith subDouble env mFBO node w (some tl)).1.maps node).mCompiled -
          (w.maps node).mCompiled)).map (Prod.mk node)) ∧
    (compileWith subDouble env mFBO node w (some tl)).2 =
      some (timeLeftAfter subDouble env node (w.maps node).mCompiled
        (((compileWith subDouble env mFBO node w (some tl)).1.maps node).mCompiled -
          (w.maps node).mCompiled) tl) ∧
    (∀ q1, (w.maps node).mCompiled ≤ q1 →
      q1 < ((compileWith subDouble env mFBO node w (some tl)).1.maps node).mCompiled →
      0 < timeLeftAfter subDouble env node (w.maps node).mCompiled
        (q1 - (w.maps node).mCompiled) tl) ∧
    (((compileWith subDouble env mFBO node w (some tl)).1.maps node).mCompiled <
        (w.maps node).mDrawables.length →
      timeLeftAfter subDouble env node (w.maps node).mCompiled
        (((compileWith subDouble env mFBO node w (some tl)).1.maps node).mCompiled -
          (w.maps node).mCompiled) tl ≤ 0) ∧
    ((∃ q1, (w.maps node).mCompiled < q1 ∧ q1 ≤ (w.maps node).mDrawables.length ∧
        timeLeftAfter subDouble env node (w.maps node).mCompiled
          (q1 - (w.maps node).mCompiled) tl ≤ 0) →
      timeLeftAfter subDouble env node (w.maps node).mCompiled
        (((compileWith subDouble env mFBO node w (some tl)).1.maps node).mCompiled -
          (w.maps node).mCompiled) tl ≤ 0 ∧
      ∀ q1, (w.maps node).mCompiled < q1 →
        timeLeftAfter subDouble env node (w.maps node).mCompiled
          (q1 - (w.maps node).mCompiled) tl ≤ 0 →
        ((compileWith subDouble env mFBO node w (some tl)).1.maps node).mCompiled ≤ q1) ∧
    ((¬ ∃ q1, (w.maps node).mCompiled < q1 ∧ q1 ≤ (w.maps node).mDrawables.length ∧
        timeLeftAfter subDouble env node (w.maps node).mCompiled
          (q1 - (w.maps node).mCompiled) tl ≤ 0) →
      ((compileWith subDouble env mFBO node w (some tl)).1.maps node).mCompiled =
        (w.maps node).mDrawables.length) ∧
    ((∀ m, 0 < m →
        m ≤ ((compileWith subDouble env mFBO node w (some tl)).1.maps node).mCompiled -
          (w.maps node).mCompiled →
        roundDouble (tl - spent env node (w.maps node).mCompiled m) =
          tl - spent env node (w.maps node).mCompiled m) →
      (compileWith subDouble env mFBO node w (some tl)).2 =
        some (tl - spent env node (w.maps node).mCompiled
          (((compileWith subDouble env mFBO node w (some tl)).1.maps node).mCompiled -
            (w.maps node).mCompiled))) := by
  have ha : ¬ Abandoned env node := by unfold Abandoned; omega
  obtain ⟨k, k1, k2, a1, ⟨es, he, hdr⟩, a4, a5, a6⟩ :=
    compileWith_budget subDouble env mFBO node w tl ha hbind hp
  have hk : ((compileWith subDouble env mFBO node w (some tl)).1.maps node).mCompiled -
      (w.maps node).mCompiled = k := by rw [a1]; omega
  have c5 : ∀ q1, (w.maps node).mCompiled ≤ q1 →
      q1 < ((compileWith subDouble env mFBO node w (some tl)).1.maps node).mCompiled →
      0 < timeLeftAfter subDouble env node (w.maps node).mCompiled
        (q1 - (w.maps node).mCompiled) tl := by
    intro q1 h1 h2
    by_cases heq : q1 = (w.maps node).mCompiled
    · rw [heq, Nat.sub_self]
      simp only [timeLeftAfter]
      exact ht
    · exact a5 (q1 - (w.maps node).mCompiled) (by omega) (by omega)
  have c6 : ((compileWith subDouble env mFBO node w (some tl)).1.maps node).mCompiled <
        (w.maps node).mDrawables.length →
      timeLeftAfter subDouble env node (w.maps node).mCompiled
        (((compileWith subDouble env mFBO node w (some tl)).1.maps node).mCompiled -
          (w.maps node).mCompiled) tl ≤ 0 := by
    intro h
    rw [hk]
    exact a6 (by omega)
  refine ⟨by omega, by omega, ⟨es, he, by rw [hk]; exact hdr⟩, by rw [hk]; exact a4, c5, c6,
    ?_, ?_, ?_⟩
  · rintro ⟨q1, h1, h2, h3⟩
    refine ⟨?_, fun q2 g1 g2 => ?_⟩
    · by_cases hlt : ((compileWith subDouble env mFBO node w (some tl)).1.maps node).mCompiled <
          (w.maps node).mDrawables.length
      · exact c6 hlt
      · have hq : q1 = ((compileWith subDouble env mFBO node w (some tl)).1.maps node).mCompiled := by
          by_contra hne
          have := c5 q1 (by omega) (by omega)
          omega
        rw [← hq]; exact h3
    · by_contra hlt
      have := c5 q2 (by omega) (by omega)
      omega
  · intro hno
    by_contra hne
    exact hno ⟨_, by omega, by omega, c6 (by omega)⟩
  · intro hexact
    rw [hk] at hexact ⊢
    rw [a4, timeLeftAfter_subDouble_exact env node _ k tl hexact]

set_option maxRecDepth 20000 in
/-- C19, witness: job 0 of three operations under the budget of 0.0005 s, the
timer reporting 1e-9 s and then 4.99999e-4 s: two operations are executed. -/
theorem compile_budget_cutoff_rounded_witness :
    1 < envRounding.referenceCount 0 ∧ BindOk envRounding (some 1) 0 ∧
    0 < budgetHalfMillisecond ∧
    ((World.init fun _ => sampleJob 3).maps 0).mCompiled <
      ((compileWith subDouble envRounding (some 1) 0 (World.init fun _ => sampleJob 3)
        (some budgetHalfMillisecond)).1.maps 0).mCompiled ∧
    ((compileWith subDouble envRounding (some 1) 0 (World.init fun _ => sampleJob 3)
      (some budgetHalfMillisecond)).1.maps 0).mCompiled = 2 :=
  ⟨by decide, by decide, by decide,
    (compile_budget_cutoff_rounded envRounding (some 1) 0 (World.init fun _ => sampleJob 3)
      budgetHalfMillisecond (by decide) (by decide) (by decide) (by decide)).1,
    by decide⟩

set_option maxRecDepth 20000 in
/-- C19, counterexample: job 0 of three operations, referenced from outside and
bound, with `mCompiled = 0`, under the budget of 0.0005 s; the timer reports
1e-9 s after operation 0 and 4.99999e-4 s after the others, all non-negative.
In `double` arithmetic the time left after two operations is exactly 0, so
`compile` ends with `mCompiled = 2` and a time left of 0, while the budget less
the sum of the two costs is positive and is `≤ 0` only after the third: the
least index of the claim is 3, and the budget is not reduced by exactly the sum
of the costs. -/
theorem rounded_time_left_stops_early :
    1 < envRounding.referenceCount 0 ∧ BindOk envRounding (some 1) 0 ∧
    ((World.init fun _ => sampleJob 3).maps 0).mCompiled = 0 ∧
    ((World.init fun _ => sampleJob 3).maps 0).mDrawables.length = 3 ∧
    0 < budgetHalfMillisecond ∧
    (∀ i, 0 ≤ envRounding.time_s 0 i) ∧
    ((compileWith subDouble envRounding (some 1) 0 (World.init fun _ => sampleJob 3)
      (some budgetHalfMillisecond)).1.maps 0).mCompiled = 2 ∧
    (compileWith subDouble envRounding (some 1) 0 (World.init fun _ => sampleJob 3)
      (some budgetHalfMillisecond)).2 = some 0 ∧
    0 < budgetHalfMillisecond - spent envRounding 0 0 1 ∧
    0 < budgetHalfMillisecond - spent envRounding 0 0 2 ∧
    budgetHalfMillisecond - spent envRounding 0 0 3 ≤ 0 ∧
    (compileWith subDouble envRounding (some 1) 0 (World.init fun _ => sampleJob 3)
      (some budgetHalfMillisecond)).2 ≠
      some (budgetHalfMillisecond - spent envRounding 0 0 2) :=
  ⟨by decide, by decide, by decide, by decide, by decide,
    fun i => by unfold envRounding; simp only []; split <;> exact Int.ofNat_nonneg _,
    by decide, by decide, by decide, by decide, by decide, by decide⟩

end Terrain
